import Mathlib

/-!
Verification of the CMacLabelParser component of FreeBSDKit
(src/Sources/CMacLabelParser/maclabel_parser.c).

The label buffer is modelled as a `List Nat` of byte values; a pointer into
the buffer is an absolute offset (a `Nat`), and the byte at offset `i` of
buffer `buf` is `buf.getD i 0`.  The parser's `end` pointer is the offset
`e` (always `buf.length` at the top level, since the C callers pass the
buffer together with its length).  A null-terminated C string is modelled
as the list of its bytes before the terminator.  Lookups keep the C calling
convention: they return the `bool` result paired with the final state of
the two output locations `(*value, *value_len)`, which the caller
initialises and which the function may overwrite.

The newline byte `'\n'` is 10, the separator `'='` is 61, NUL is 0.
-/

set_option maxRecDepth 200000

namespace MacLabel

/-- Byte of `buf` at offset `i` (reads at or past the end give 0; all
actual uses stay in bounds). -/
def byteAt (buf : List Nat) (i : Nat) : Nat := buf.getD i 0

/-- One parsed key/value entry (`struct maclabel_entry`): `key` and `value`
are the offsets of the two spans in the original buffer, with explicit
lengths. -/
structure maclabel_entry where
  key : Nat
  key_len : Nat
  value : Nat
  value_len : Nat
deriving DecidableEq

/-- Embedding of the helper `find_char`: the first offset `i` with
`s ≤ i < e` holding byte `c`, scanning left to right, or `none`. -/
def find_char (buf : List Nat) (s e : Nat) (c : Nat) : Option Nat :=
  if s < e then
    if byteAt buf s = c then some s else find_char buf (s + 1) e c
  else none
termination_by e - s

/-- Embedding of the helper `compare_key`: compare the byte slice at
offset `off` of length `key_len` against the null-terminated string
`target`, like strcmp.  The C loop `i < key_len && target[i] != '\0'` stops
when the slice length or the target list is exhausted; the two checks after
the loop are the first two match arms. -/
def compare_key (buf : List Nat) (off key_len : Nat) (target : List Nat) : Int :=
  match key_len, target with
  | 0, [] => 0
  | 0, _ :: _ => -1
  | _ + 1, [] => 1
  | k + 1, t :: ts =>
    if byteAt buf off < t then -1
    else if t < byteAt buf off then 1
    else compare_key buf (off + 1) k ts

/-- The blank-line skip loop shared by `maclabel_parser_next` and
`maclabel_find`: `while (p < end && *p == '\n') p++`. -/
def skip_blank (buf : List Nat) (e pos : Nat) : Nat :=
  if pos < e then
    if byteAt buf pos = 10 then skip_blank buf e (pos + 1) else pos
  else pos
termination_by e - pos

/-- The line-scanning loop of `maclabel_find`'s index builder:
`while (p < end && *p != '\n') p++`. -/
def skip_line (buf : List Nat) (e pos : Nat) : Nat :=
  if pos < e then
    if byteAt buf pos = 10 then pos else skip_line buf e (pos + 1)
  else pos
termination_by e - pos

/-- End of the line starting at `p`: the first newline at or after `p`, or
`e` when the line has no trailing newline.  This is the computation
`line_end = find_char(line_start, end, '\n'); if (line_end == NULL)
line_end = end;` that appears in `maclabel_parser_next`, `maclabel_find`
and `maclabel_validate`. -/
def line_end_pos (buf : List Nat) (e p : Nat) : Nat :=
  (find_char buf p e 10).getD e

/-- Cursor position after consuming the line starting at `p`: one past the
line's newline, or `e` for a final line without one. -/
def line_next (buf : List Nat) (e p : Nat) : Nat :=
  if line_end_pos buf e p < e then line_end_pos buf e p + 1 else e

/-!
Specifications of the scanning helpers.  These are needed both for the
termination arguments of the definitions below and throughout the proofs.
-/

theorem find_char_some_spec (buf : List Nat) (e c : Nat) :
    ∀ s i, find_char buf s e c = some i →
      s ≤ i ∧ i < e ∧ byteAt buf i = c ∧ ∀ j, s ≤ j → j < i → byteAt buf j ≠ c := by
  have main : ∀ n s i, e - s ≤ n → find_char buf s e c = some i →
      s ≤ i ∧ i < e ∧ byteAt buf i = c ∧ ∀ j, s ≤ j → j < i → byteAt buf j ≠ c := by
    intro n
    induction n with
    | zero =>
      intro s i hn h
      rw [find_char] at h
      have hse : ¬ s < e := by omega
      rw [if_neg hse] at h
      exact absurd h (by simp)
    | succ n ih =>
      intro s i hn h
      rw [find_char] at h
      by_cases hse : s < e
      · rw [if_pos hse] at h
        by_cases hc : byteAt buf s = c
        · rw [if_pos hc] at h
          cases h
          exact ⟨Nat.le_refl _, hse, hc,
            fun j hj1 hj2 => absurd (Nat.lt_of_lt_of_le hj2 hj1) (Nat.lt_irrefl _)⟩
        · rw [if_neg hc] at h
          obtain ⟨h1, h2, h3, h4⟩ := ih (s + 1) i (by omega) h
          refine ⟨by omega, h2, h3, fun j hj1 hj2 => ?_⟩
          rcases Nat.eq_or_lt_of_le hj1 with rfl | hlt
          · exact hc
          · exact h4 j hlt hj2
      · rw [if_neg hse] at h
        exact absurd h (by simp)
  exact fun s i => main (e - s) s i (Nat.le_refl _)

theorem find_char_none_spec (buf : List Nat) (e c : Nat) :
    ∀ s, find_char buf s e c = none → ∀ j, s ≤ j → j < e → byteAt buf j ≠ c := by
  have main : ∀ n s, e - s ≤ n → find_char buf s e c = none →
      ∀ j, s ≤ j → j < e → byteAt buf j ≠ c := by
    intro n
    induction n with
    | zero =>
      intro s hn h j hj1 hj2
      omega
    | succ n ih =>
      intro s hn h j hj1 hj2
      rw [find_char] at h
      by_cases hse : s < e
      · rw [if_pos hse] at h
        by_cases hc : byteAt buf s = c
        · rw [if_pos hc] at h
          exact absurd h (by simp)
        · rw [if_neg hc] at h
          rcases Nat.eq_or_lt_of_le hj1 with rfl | hlt
          · exact hc
          · exact ih (s + 1) (by omega) h j hlt hj2
      · omega
  exact fun s => main (e - s) s (Nat.le_refl _)

theorem find_char_of_byte (buf : List Nat) (e c : Nat) :
    ∀ s j, s ≤ j → j < e → byteAt buf j = c → ∃ i, find_char buf s e c = some i ∧ i ≤ j := by
  intro s j hj1 hj2 hj3
  match hf : find_char buf s e c with
  | some i =>
    refine ⟨i, rfl, ?_⟩
    by_contra hcon
    exact (find_char_some_spec buf e c s i hf).2.2.2 j hj1 (by omega) hj3
  | none => exact absurd hj3 (find_char_none_spec buf e c s hf j hj1 hj2)

theorem skip_blank_spec (buf : List Nat) (e : Nat) :
    ∀ pos, pos ≤ skip_blank buf e pos ∧
      (skip_blank buf e pos < e → byteAt buf (skip_blank buf e pos) ≠ 10) ∧
      (pos ≤ e → skip_blank buf e pos ≤ e) ∧
      (∀ j, pos ≤ j → j < skip_blank buf e pos → byteAt buf j = 10) := by
  have main : ∀ n pos, e - pos ≤ n → pos ≤ skip_blank buf e pos ∧
      (skip_blank buf e pos < e → byteAt buf (skip_blank buf e pos) ≠ 10) ∧
      (pos ≤ e → skip_blank buf e pos ≤ e) ∧
      (∀ j, pos ≤ j → j < skip_blank buf e pos → byteAt buf j = 10) := by
    intro n
    induction n with
    | zero =>
      intro pos hn
      rw [skip_blank]
      have hpe : ¬ pos < e := by omega
      rw [if_neg hpe]
      exact ⟨Nat.le_refl _, fun h => absurd h hpe, fun h => h,
        fun j h1 h2 => absurd (Nat.lt_of_lt_of_le h2 h1) (Nat.lt_irrefl _)⟩
    | succ n ih =>
      intro pos hn
      rw [skip_blank]
      by_cases hpe : pos < e
      · rw [if_pos hpe]
        by_cases hb : byteAt buf pos = 10
        · rw [if_pos hb]
          obtain ⟨h1, h2, h3, h4⟩ := ih (pos + 1) (by omega)
          refine ⟨by omega, h2, fun _ => h3 (by omega), fun j hj1 hj2 => ?_⟩
          rcases Nat.eq_or_lt_of_le hj1 with rfl | hlt
          · exact hb
          · exact h4 j hlt hj2
        · rw [if_neg hb]
          exact ⟨Nat.le_refl _, fun _ => hb, fun h => Nat.le_of_lt hpe,
            fun j h1 h2 => absurd (Nat.lt_of_lt_of_le h2 h1) (Nat.lt_irrefl _)⟩
      · rw [if_neg hpe]
        exact ⟨Nat.le_refl _, fun h => absurd h hpe, fun h => h,
          fun j h1 h2 => absurd (Nat.lt_of_lt_of_le h2 h1) (Nat.lt_irrefl _)⟩
  exact fun pos => main (e - pos) pos (Nat.le_refl _)

theorem skip_line_eq (buf : List Nat) (e : Nat) :
    ∀ pos, pos ≤ e → skip_line buf e pos = (find_char buf pos e 10).getD e := by
  have main : ∀ n pos, e - pos ≤ n → pos ≤ e →
      skip_line buf e pos = (find_char buf pos e 10).getD e := by
    intro n
    induction n with
    | zero =>
      intro pos hn hpos
      rw [skip_line, find_char]
      have hpe : ¬ pos < e := by omega
      rw [if_neg hpe, if_neg hpe]
      simp
      omega
    | succ n ih =>
      intro pos hn hpos
      rw [skip_line, find_char]
      by_cases hpe : pos < e
      · rw [if_pos hpe, if_pos hpe]
        by_cases hb : byteAt buf pos = 10
        · rw [if_pos hb, if_pos hb]
          simp
        · rw [if_neg hb, if_neg hb]
          exact ih (pos + 1) (by omega) (by omega)
      · rw [if_neg hpe, if_neg hpe]
        simp
        omega
  exact fun pos => main (e - pos) pos (Nat.le_refl _)

theorem line_end_bounds (buf : List Nat) (e p : Nat) (hp : p < e) :
    p ≤ line_end_pos buf e p ∧ line_end_pos buf e p ≤ e := by
  rw [line_end_pos]
  rcases hf : find_char buf p e 10 with _ | le
  · simp only [Option.getD_none]
    exact ⟨Nat.le_of_lt hp, Nat.le_refl e⟩
  · simp only [Option.getD_some]
    have h := find_char_some_spec buf e 10 p le hf
    exact ⟨h.1, Nat.le_of_lt h.2.1⟩

theorem line_next_bounds (buf : List Nat) (e p : Nat) (hp : p < e) :
    p < line_next buf e p ∧ line_next buf e p ≤ e := by
  have h := line_end_bounds buf e p hp
  rw [line_next]
  by_cases hle : line_end_pos buf e p < e
  · rw [if_pos hle]; omega
  · rw [if_neg hle]; omega

/-!
The entry iterator and the operations built on it.
-/

/-- Embedding of `maclabel_parser_next`.  The parser cursor
`{parser->data, parser->end}` is the pair `(pos, e)`; the function returns
`none` for C's `false` (sequence exhausted) and otherwise the populated
entry together with the advanced cursor.  The branch `p = le` is C's
empty-line check `line_start == line_end` (unreachable after the blank
skip, but kept); a line without `=` recurses, i.e. is silently skipped. -/
def maclabel_parser_next (buf : List Nat) (e pos : Nat) : Option (maclabel_entry × Nat) :=
  let p := skip_blank buf e pos
  if hp : p < e then
    let le := line_end_pos buf e p
    let np := line_next buf e p
    if p = le then maclabel_parser_next buf e np
    else
      match find_char buf p le 61 with
      | none => maclabel_parser_next buf e np
      | some eqp => some (⟨p, eqp - p, eqp + 1, le - (eqp + 1)⟩, np)
  else none
termination_by e - pos
decreasing_by
  all_goals
    have h1 := (skip_blank_spec buf e pos).1
    have h2 := line_next_bounds buf e (skip_blank buf e pos) hp
    omega

theorem parser_next_advance (buf : List Nat) (e : Nat) :
    ∀ pos ent np, maclabel_parser_next buf e pos = some (ent, np) →
      pos < np ∧ np ≤ e := by
  have main : ∀ n pos ent np, e - pos ≤ n →
      maclabel_parser_next buf e pos = some (ent, np) → pos < np ∧ np ≤ e := by
    intro n
    induction n with
    | zero =>
      intro pos ent np hn h
      rw [maclabel_parser_next] at h
      have h1 := (skip_blank_spec buf e pos).1
      have hpe : ¬ skip_blank buf e pos < e := by omega
      rw [dif_neg hpe] at h
      exact absurd h (by simp)
    | succ n ih =>
      intro pos ent np hn h
      rw [maclabel_parser_next] at h
      have h1 := (skip_blank_spec buf e pos).1
      by_cases hpe : skip_blank buf e pos < e
      · rw [dif_pos hpe] at h
        have h2 := line_next_bounds buf e (skip_blank buf e pos) hpe
        by_cases hemp : skip_blank buf e pos = line_end_pos buf e (skip_blank buf e pos)
        · rw [if_pos hemp] at h
          have := ih (line_next buf e (skip_blank buf e pos)) ent np (by omega) h
          omega
        · rw [if_neg hemp] at h
          rcases hf : find_char buf (skip_blank buf e pos)
              (line_end_pos buf e (skip_blank buf e pos)) 61 with _ | eqp
          · rw [hf] at h
            have := ih (line_next buf e (skip_blank buf e pos)) ent np (by omega) h
            omega
          · rw [hf] at h
            simp only [Option.some.injEq, Prod.mk.injEq] at h
            omega
      · rw [dif_neg hpe] at h
        exact absurd h (by simp)
  exact fun pos ent np => main (e - pos) pos ent np (Nat.le_refl _)

/-- The full sequence of entries the iterator yields from cursor position
`pos`: repeated calls to `maclabel_parser_next` until it reports
exhaustion. -/
def maclabel_entries_from (buf : List Nat) (e pos : Nat) : List maclabel_entry :=
  match h : maclabel_parser_next buf e pos with
  | none => []
  | some (ent, np) => ent :: maclabel_entries_from buf e np
termination_by e - pos
decreasing_by
  have := parser_next_advance buf e pos ent np h
  omega

/-- Entries of a whole buffer, from a freshly initialised parser. -/
def maclabel_entries (buf : List Nat) : List maclabel_entry :=
  maclabel_entries_from buf buf.length 0

/-- Embedding of the loop of `maclabel_count`. -/
def maclabel_count_from (buf : List Nat) (e pos : Nat) : Nat :=
  match h : maclabel_parser_next buf e pos with
  | none => 0
  | some (_, np) => maclabel_count_from buf e np + 1
termination_by e - pos
decreasing_by
  have := parser_next_advance buf e pos _ np h
  omega

/-- Embedding of `maclabel_count`. -/
def maclabel_count (buf : List Nat) : Nat :=
  maclabel_count_from buf buf.length 0

/-- The byte-comparison loop of `maclabel_find_linear`:
`for (i = 0; i < key_len; i++) if (entry.key[i] != key[i]) ...`. -/
def key_bytes_match (buf : List Nat) (off : Nat) (key : List Nat) : Bool :=
  match key with
  | [] => true
  | k :: ks => if byteAt buf off = k then key_bytes_match buf (off + 1) ks else false

/-- The match test of `maclabel_find_linear`: equal length, then equal
bytes. -/
def entry_matches (buf key : List Nat) (ent : maclabel_entry) : Bool :=
  if ent.key_len = key.length then key_bytes_match buf ent.key key else false

/-- The scanning loop of `maclabel_find_linear`.  `v` is the state of the
caller's output locations `(*value, *value_len)`; they are overwritten
exactly where the C writes them. -/
def maclabel_find_linear_from (buf : List Nat) (e : Nat) (key : List Nat)
    (pos : Nat) (v : Nat × Nat) : Bool × (Nat × Nat) :=
  match h : maclabel_parser_next buf e pos with
  | none => (false, v)
  | some (ent, np) =>
    if entry_matches buf key ent then (true, (ent.value, ent.value_len))
    else maclabel_find_linear_from buf e key np v
termination_by e - pos
decreasing_by
  have := parser_next_advance buf e pos ent np h
  omega

/-- Embedding of `maclabel_find_linear` (the C `key` is null-terminated;
its `str_len` is the model list's length). -/
def maclabel_find_linear (buf key : List Nat) (v : Nat × Nat) : Bool × (Nat × Nat) :=
  maclabel_find_linear_from buf buf.length key 0 v

/-- The index-building loop of `maclabel_find`: record the start offset of
each non-blank line, stopping at `MAX_ENTRIES = 64` recorded lines or at
the end of the buffer. -/
def build_index (buf : List Nat) (e p line_count : Nat) : List Nat :=
  if p < e ∧ line_count < 64 then
    let q := skip_blank buf e p
    if q < e then
      q :: build_index buf e
        (if skip_line buf e q < e then skip_line buf e q + 1 else skip_line buf e q)
        (line_count + 1)
    else []
  else []
termination_by 64 - line_count
decreasing_by omega

/-- The binary-search loop of `maclabel_find` over the index of line
starts, with the output-location state threaded through. -/
def bsearch (buf : List Nat) (e : Nat) (key : List Nat) (lines : List Nat)
    (lo hi : Nat) (v : Nat × Nat) : Bool × (Nat × Nat) :=
  if hlh : lo < hi then
    let mid := lo + (hi - lo) / 2
    let line := lines.getD mid 0
    let le := line_end_pos buf e line
    match find_char buf line le 61 with
    | none => bsearch buf e key lines (mid + 1) hi v
    | some eqp =>
      let cmp := compare_key buf line (eqp - line) key
      if cmp = 0 then (true, (eqp + 1, le - (eqp + 1)))
      else if cmp < 0 then bsearch buf e key lines (mid + 1) hi v
      else bsearch buf e key lines lo mid v
  else (false, v)
termination_by hi - lo
decreasing_by
  all_goals
    have h1 : (hi - lo) / 2 < hi - lo := Nat.div_lt_self (by omega) (by omega)
    omega

/-- Embedding of `maclabel_find`: build the bounded index (`lines`,
written out here), fall back to the linear search when it filled up
(`line_count >= MAX_ENTRIES`), otherwise binary-search the index with
`lo = 0, hi = line_count`. -/
def maclabel_find (buf key : List Nat) (v : Nat × Nat) : Bool × (Nat × Nat) :=
  if 64 ≤ (build_index buf buf.length 0 0).length then maclabel_find_linear buf key v
  else bsearch buf buf.length key (build_index buf buf.length 0 0) 0
    (build_index buf buf.length 0 0).length v

/-- The embedded-NUL check of `maclabel_validate`:
`for (c = line_start; c < line_end; c++) if (*c == '\0') ...`. -/
def line_has_nul (buf : List Nat) (s e : Nat) : Bool :=
  if s < e then
    if byteAt buf s = 0 then true else line_has_nul buf (s + 1) e
  else false
termination_by e - s

/-- The scanning loop of `maclabel_validate`. -/
def maclabel_validate_from (buf : List Nat) (e pos : Nat) : Bool :=
  if hp : pos < e then
    if byteAt buf pos = 10 then maclabel_validate_from buf e (pos + 1)
    else
      let le := line_end_pos buf e pos
      if line_has_nul buf pos le then false
      else
        match find_char buf pos le 61 with
        | none => false
        | some eqp =>
          if eqp = pos then false
          else maclabel_validate_from buf e (line_next buf e pos)
  else true
termination_by e - pos
decreasing_by
  · omega
  · have h2 := line_next_bounds buf e pos hp
    omega

/-- Embedding of `maclabel_validate`. -/
def maclabel_validate (buf : List Nat) : Bool :=
  maclabel_validate_from buf buf.length 0

/-!
Reasoning-level descriptions of the line structure of a buffer, used to
state and relate the operations above.
-/

/-- Start offsets of all non-blank lines from `pos` on: the same walk as
`build_index`, without the capacity bound. -/
def lineStartsAll (buf : List Nat) (e pos : Nat) : List Nat :=
  let p := skip_blank buf e pos
  if hp : p < e then p :: lineStartsAll buf e (line_next buf e p) else []
termination_by e - pos
decreasing_by
  have h1 := (skip_blank_spec buf e pos).1
  have h2 := line_next_bounds buf e (skip_blank buf e pos) hp
  omega

/-- Number of non-blank lines of a buffer. -/
def nonblank_lines (buf : List Nat) : Nat :=
  (lineStartsAll buf buf.length 0).length

/-- The key of the line starting at `q`: the bytes strictly before the
line's first `=` (the whole line when it has no `=`; only used on lines
that do have one). -/
def lineKey (buf : List Nat) (e q : Nat) : List Nat :=
  (buf.drop q).take ((find_char buf q (line_end_pos buf e q) 61).getD (line_end_pos buf e q) - q)

/-- Well-formedness of the non-blank line starting at `q`: it contains a
`=` and the key before it is non-empty. -/
def line_ok (buf : List Nat) (e q : Nat) : Bool :=
  match find_char buf q (line_end_pos buf e q) 61 with
  | some eqp => if q < eqp then true else false
  | none => false

/-- The value span of the (well-formed) line starting at `q`. -/
def value_span (buf : List Nat) (e q : Nat) : Nat × Nat :=
  let le := line_end_pos buf e q
  let eqp := (find_char buf q le 61).getD le
  (eqp + 1, le - (eqp + 1))

/-- Three-way byte-lexicographic comparison of two full byte strings,
written from the specification's words: the first differing byte pair
decides; when all compared bytes match, the shorter string is smaller. -/
def lexCompare : List Nat → List Nat → Int
  | [], [] => 0
  | [], _ :: _ => -1
  | _ :: _, [] => 1
  | a :: as, b :: bs =>
    if a < b then -1
    else if b < a then 1
    else lexCompare as bs

/-- The content of the line starting at offset `i`: the bytes from `i` up
to the first newline or the end of the buffer. -/
def lineAt (buf : List Nat) (i : Nat) : List Nat :=
  (buf.drop i).takeWhile (fun b => !(b == 10))

/-- What makes a non-blank line invalid, in the specification's terms:
it lacks `=`, its first byte is `=` (empty key), or it contains an
embedded NUL byte. -/
def bad_line_cond (buf : List Nat) (i : Nat) : Prop :=
  ¬ 61 ∈ lineAt buf i ∨ (lineAt buf i).head? = some 61 ∨ 0 ∈ lineAt buf i

/-- The entry the iterator produces for the non-blank line starting at
`q`, or `none` when the line has no `=` and is skipped. -/
def entry_of (buf : List Nat) (e q : Nat) : Option maclabel_entry :=
  (find_char buf q (line_end_pos buf e q) 61).map
    (fun eqp => ⟨q, eqp - q, eqp + 1, line_end_pos buf e q - (eqp + 1)⟩)

/-!
Step lemmas: one unfolding of each loop, with the dead empty-line branch
of `maclabel_parser_next` discharged.
-/

theorem parser_next_eq (buf : List Nat) (e pos : Nat) :
    maclabel_parser_next buf e pos =
      (if skip_blank buf e pos < e then
        match find_char buf (skip_blank buf e pos)
            (line_end_pos buf e (skip_blank buf e pos)) 61 with
        | none => maclabel_parser_next buf e (line_next buf e (skip_blank buf e pos))
        | some eqp =>
          some (⟨skip_blank buf e pos, eqp - skip_blank buf e pos, eqp + 1,
              line_end_pos buf e (skip_blank buf e pos) - (eqp + 1)⟩,
            line_next buf e (skip_blank buf e pos))
      else none) := by
  rw [maclabel_parser_next]
  by_cases hpe : skip_blank buf e pos < e
  · rw [dif_pos hpe, if_pos hpe]
    have hb := (skip_blank_spec buf e pos).2.1 hpe
    have hne : ¬ skip_blank buf e pos = line_end_pos buf e (skip_blank buf e pos) := by
      intro hcontra
      rw [line_end_pos] at hcontra
      rcases hf : find_char buf (skip_blank buf e pos) e 10 with _ | le
      · rw [hf] at hcontra
        simp at hcontra
        omega
      · rw [hf] at hcontra
        simp at hcontra
        have hbyte := (find_char_some_spec buf e 10 _ _ hf).2.2.1
        rw [← hcontra] at hbyte
        exact hb hbyte
    rw [if_neg hne]
  · rw [dif_neg hpe, if_neg hpe]

theorem entries_from_of_none (buf : List Nat) (e pos : Nat)
    (h : maclabel_parser_next buf e pos = none) :
    maclabel_entries_from buf e pos = [] := by
  rw [maclabel_entries_from]
  split
  · rfl
  · rename_i ent np heq
    rw [h] at heq
    exact absurd heq (by simp)

theorem entries_from_of_some (buf : List Nat) (e pos : Nat) (ent : maclabel_entry) (np : Nat)
    (h : maclabel_parser_next buf e pos = some (ent, np)) :
    maclabel_entries_from buf e pos = ent :: maclabel_entries_from buf e np := by
  rw [maclabel_entries_from]
  split
  · rename_i heq
    rw [h] at heq
    exact absurd heq (by simp)
  · rename_i ent2 np2 heq
    rw [h] at heq
    simp only [Option.some.injEq, Prod.mk.injEq] at heq
    rw [heq.1, heq.2]

theorem count_from_of_none (buf : List Nat) (e pos : Nat)
    (h : maclabel_parser_next buf e pos = none) :
    maclabel_count_from buf e pos = 0 := by
  rw [maclabel_count_from]
  split
  · rfl
  · rename_i ent np heq
    rw [h] at heq
    exact absurd heq (by simp)

theorem count_from_of_some (buf : List Nat) (e pos : Nat) (ent : maclabel_entry) (np : Nat)
    (h : maclabel_parser_next buf e pos = some (ent, np)) :
    maclabel_count_from buf e pos = maclabel_count_from buf e np + 1 := by
  rw [maclabel_count_from]
  split
  · rename_i heq
    rw [h] at heq
    exact absurd heq (by simp)
  · rename_i ent2 np2 heq
    rw [h] at heq
    simp only [Option.some.injEq, Prod.mk.injEq] at heq
    rw [heq.2]

theorem find_linear_from_of_none (buf : List Nat) (e : Nat) (key : List Nat)
    (pos : Nat) (v : Nat × Nat)
    (h : maclabel_parser_next buf e pos = none) :
    maclabel_find_linear_from buf e key pos v = (false, v) := by
  rw [maclabel_find_linear_from]
  split
  · rfl
  · rename_i ent np heq
    rw [h] at heq
    exact absurd heq (by simp)

theorem find_linear_from_of_some (buf : List Nat) (e : Nat) (key : List Nat)
    (pos : Nat) (v : Nat × Nat) (ent : maclabel_entry) (np : Nat)
    (h : maclabel_parser_next buf e pos = some (ent, np)) :
    maclabel_find_linear_from buf e key pos v =
      (if entry_matches buf key ent then (true, (ent.value, ent.value_len))
       else maclabel_find_linear_from buf e key np v) := by
  rw [maclabel_find_linear_from]
  split
  · rename_i heq
    rw [h] at heq
    exact absurd heq (by simp)
  · rename_i ent2 np2 heq
    rw [h] at heq
    simp only [Option.some.injEq, Prod.mk.injEq] at heq
    rw [heq.1, heq.2]

theorem lineStartsAll_eq (buf : List Nat) (e pos : Nat) :
    lineStartsAll buf e pos =
      (if skip_blank buf e pos < e then
        skip_blank buf e pos :: lineStartsAll buf e (line_next buf e (skip_blank buf e pos))
      else []) := by
  rw [lineStartsAll]
  by_cases hpe : skip_blank buf e pos < e
  · rw [dif_pos hpe, if_pos hpe]
  · rw [dif_neg hpe, if_neg hpe]

/-!
The iterator agrees with the line decomposition: from any cursor position
it yields exactly the entries of the non-blank lines that contain `=`.
-/

theorem entries_from_eq_filterMap (buf : List Nat) (e : Nat) :
    ∀ pos, maclabel_entries_from buf e pos =
      (lineStartsAll buf e pos).filterMap (entry_of buf e) := by
  have main : ∀ n pos, e - pos ≤ n → maclabel_entries_from buf e pos =
      (lineStartsAll buf e pos).filterMap (entry_of buf e) := by
    intro n
    induction n with
    | zero =>
      intro pos hn
      have hpe : ¬ skip_blank buf e pos < e := by
        have := (skip_blank_spec buf e pos).1
        omega
      rw [lineStartsAll_eq, if_neg hpe]
      rw [entries_from_of_none buf e pos (by rw [parser_next_eq, if_neg hpe])]
      rfl
    | succ n ih =>
      intro pos hn
      by_cases hpe : skip_blank buf e pos < e
      · have hadv := line_next_bounds buf e (skip_blank buf e pos) hpe
        have hskip := (skip_blank_spec buf e pos).1
        rw [lineStartsAll_eq, if_pos hpe]
        rcases hf : find_char buf (skip_blank buf e pos)
            (line_end_pos buf e (skip_blank buf e pos)) 61 with _ | eqp
        · have hnone : entry_of buf e (skip_blank buf e pos) = none := by
            rw [entry_of, hf]; rfl
          rw [List.filterMap_cons_none hnone]
          have hstep : maclabel_parser_next buf e pos =
              maclabel_parser_next buf e (line_next buf e (skip_blank buf e pos)) := by
            rw [parser_next_eq, if_pos hpe, hf]
          rw [← ih (line_next buf e (skip_blank buf e pos)) (by omega)]
          rcases hcase : maclabel_parser_next buf e
              (line_next buf e (skip_blank buf e pos)) with _ | ⟨ent, np⟩
          · rw [entries_from_of_none buf e pos (hstep.trans hcase),
              entries_from_of_none buf e _ hcase]
          · rw [entries_from_of_some buf e pos ent np (hstep.trans hcase),
              entries_from_of_some buf e _ ent np hcase]
        · have hsome : entry_of buf e (skip_blank buf e pos) =
              some ⟨skip_blank buf e pos, eqp - skip_blank buf e pos, eqp + 1,
                line_end_pos buf e (skip_blank buf e pos) - (eqp + 1)⟩ := by
            rw [entry_of, hf]; rfl
          rw [List.filterMap_cons_some hsome]
          have hstep : maclabel_parser_next buf e pos =
              some (⟨skip_blank buf e pos, eqp - skip_blank buf e pos, eqp + 1,
                  line_end_pos buf e (skip_blank buf e pos) - (eqp + 1)⟩,
                line_next buf e (skip_blank buf e pos)) := by
            rw [parser_next_eq, if_pos hpe, hf]
          rw [entries_from_of_some buf e pos _ _ hstep]
          rw [ih (line_next buf e (skip_blank buf e pos)) (by omega)]
      · rw [lineStartsAll_eq, if_neg hpe]
        rw [entries_from_of_none buf e pos (by rw [parser_next_eq, if_neg hpe])]
        rfl
  exact fun pos => main (e - pos) pos (Nat.le_refl _)

theorem count_from_eq_length (buf : List Nat) (e : Nat) :
    ∀ pos, maclabel_count_from buf e pos = (maclabel_entries_from buf e pos).length := by
  have main : ∀ n pos, e - pos ≤ n →
      maclabel_count_from buf e pos = (maclabel_entries_from buf e pos).length := by
    intro n
    induction n with
    | zero =>
      intro pos hn
      have hpe : ¬ skip_blank buf e pos < e := by
        have := (skip_blank_spec buf e pos).1
        omega
      have hnone : maclabel_parser_next buf e pos = none := by
        rw [parser_next_eq, if_neg hpe]
      rw [count_from_of_none buf e pos hnone, entries_from_of_none buf e pos hnone]
      rfl
    | succ n ih =>
      intro pos hn
      rcases hcase : maclabel_parser_next buf e pos with _ | ⟨ent, np⟩
      · rw [count_from_of_none buf e pos hcase, entries_from_of_none buf e pos hcase]
        rfl
      · have hadv := parser_next_advance buf e pos ent np hcase
        rw [count_from_of_some buf e pos ent np hcase,
          entries_from_of_some buf e pos ent np hcase, List.length_cons,
          ih np (by omega)]
  exact fun pos => main (e - pos) pos (Nat.le_refl _)

theorem find_linear_from_eq (buf : List Nat) (e : Nat) (key : List Nat) :
    ∀ pos v, maclabel_find_linear_from buf e key pos v =
      (match (maclabel_entries_from buf e pos).find? (entry_matches buf key) with
       | some ent => (true, (ent.value, ent.value_len))
       | none => (false, v)) := by
  have main : ∀ n pos v, e - pos ≤ n → maclabel_find_linear_from buf e key pos v =
      (match (maclabel_entries_from buf e pos).find? (entry_matches buf key) with
       | some ent => (true, (ent.value, ent.value_len))
       | none => (false, v)) := by
    intro n
    induction n with
    | zero =>
      intro pos v hn
      have hpe : ¬ skip_blank buf e pos < e := by
        have := (skip_blank_spec buf e pos).1
        omega
      have hnone : maclabel_parser_next buf e pos = none := by
        rw [parser_next_eq, if_neg hpe]
      rw [find_linear_from_of_none buf e key pos v hnone, entries_from_of_none buf e pos hnone]
      rfl
    | succ n ih =>
      intro pos v hn
      rcases hcase : maclabel_parser_next buf e pos with _ | ⟨ent, np⟩
      · rw [find_linear_from_of_none buf e key pos v hcase,
          entries_from_of_none buf e pos hcase]
        rfl
      · have hadv := parser_next_advance buf e pos ent np hcase
        rw [find_linear_from_of_some buf e key pos v ent np hcase,
          entries_from_of_some buf e pos ent np hcase]
        by_cases hm : entry_matches buf key ent
        · rw [if_pos hm, List.find?_cons_of_pos _ hm]
        · rw [if_neg hm, List.find?_cons_of_neg _ (by simpa using hm),
            ih np v (by omega)]
  exact fun pos v => main (e - pos) pos v (Nat.le_refl _)

/-!
The byte-lexicographic order: `lexCompare` is a strict three-way
comparison, and `compare_key` computes it on an in-bounds slice against a
(modelled) null-terminated string.
-/

theorem lexCompare_eq_zero_iff : ∀ a b : List Nat, lexCompare a b = 0 ↔ a = b := by
  intro a
  induction a with
  | nil =>
    intro b
    cases b with
    | nil => simp [lexCompare]
    | cons y ys => simp [lexCompare]
  | cons x xs ih =>
    intro b
    cases b with
    | nil => simp [lexCompare]
    | cons y ys =>
      rw [lexCompare]
      by_cases hxy : x < y
      · rw [if_pos hxy]
        constructor
        · intro h; exact absurd h (by decide)
        · intro h
          simp only [List.cons.injEq] at h
          omega
      · rw [if_neg hxy]
        by_cases hyx : y < x
        · rw [if_pos hyx]
          constructor
          · intro h; exact absurd h (by decide)
          · intro h
            simp only [List.cons.injEq] at h
            omega
        · rw [if_neg hyx]
          have hx : x = y := by omega
          rw [ih ys]
          simp [hx]

theorem lexCompare_trichotomy : ∀ a b : List Nat,
    lexCompare a b = -1 ∨ lexCompare a b = 0 ∨ lexCompare a b = 1 := by
  intro a
  induction a with
  | nil =>
    intro b
    cases b with
    | nil => simp [lexCompare]
    | cons y ys => simp [lexCompare]
  | cons x xs ih =>
    intro b
    cases b with
    | nil => simp [lexCompare]
    | cons y ys =>
      rw [lexCompare]
      by_cases hxy : x < y
      · rw [if_pos hxy]; left; rfl
      · rw [if_neg hxy]
        by_cases hyx : y < x
        · rw [if_pos hyx]; right; right; rfl
        · rw [if_neg hyx]; exact ih ys

theorem lexCompare_flip : ∀ a b : List Nat, lexCompare b a = -(lexCompare a b) := by
  intro a
  induction a with
  | nil =>
    intro b
    cases b with
    | nil => simp [lexCompare]
    | cons y ys => simp [lexCompare]
  | cons x xs ih =>
    intro b
    cases b with
    | nil => simp [lexCompare]
    | cons y ys =>
      rw [lexCompare, lexCompare]
      by_cases hxy : x < y
      · have hyx : ¬ y < x := by omega
        rw [if_neg hyx, if_pos hxy, if_pos hxy]
        decide
      · by_cases hyx : y < x
        · rw [if_pos hyx, if_neg hxy, if_pos hyx]
        · rw [if_neg hyx, if_neg hxy, if_neg hxy, if_neg hyx]
          exact ih ys

theorem lexCompare_trans_neg : ∀ a b c : List Nat,
    lexCompare a b = -1 → lexCompare b c = -1 → lexCompare a c = -1 := by
  intro a
  induction a with
  | nil =>
    intro b c hab hbc
    cases b with
    | nil => exact absurd hab (by simp [lexCompare])
    | cons y ys =>
      cases c with
      | nil => exact absurd hbc (by simp [lexCompare])
      | cons z zs => simp [lexCompare]
  | cons x xs ih =>
    intro b c hab hbc
    cases b with
    | nil => exact absurd hab (by simp [lexCompare])
    | cons y ys =>
      cases c with
      | nil => exact absurd hbc (by simp [lexCompare])
      | cons z zs =>
        rw [lexCompare] at hab hbc ⊢
        by_cases hxy : x < y
        · rw [if_pos hxy] at hab
          by_cases hyz : y < z
          · have hxz : x < z := by omega
            rw [if_pos hxz]
          · rw [if_neg hyz] at hbc
            by_cases hzy : z < y
            · rw [if_pos hzy] at hbc
              exact absurd hbc (by decide)
            · have hyz2 : y = z := by omega
              have hxz : x < z := by omega
              rw [if_pos hxz]
        · rw [if_neg hxy] at hab
          by_cases hyx : y < x
          · rw [if_pos hyx] at hab
            exact absurd hab (by decide)
          · rw [if_neg hyx] at hab
            have hxy2 : x = y := by omega
            by_cases hyz : y < z
            · have hxz : x < z := by omega
              rw [if_pos hxz]
            · rw [if_neg hyz] at hbc
              by_cases hzy : z < y
              · rw [if_pos hzy] at hbc
                exact absurd hbc (by decide)
              · rw [if_neg hzy] at hbc
                have hxz : ¬ x < z := by omega
                have hzx : ¬ z < x := by omega
                rw [if_neg hxz, if_neg hzx]
                exact ih ys zs hab hbc

theorem compare_key_eq_lex (buf : List Nat) :
    ∀ target off key_len, off + key_len ≤ buf.length →
      compare_key buf off key_len target = lexCompare ((buf.drop off).take key_len) target := by
  intro target
  induction target with
  | nil =>
    intro off key_len hb
    cases key_len with
    | zero => simp [compare_key, lexCompare]
    | succ k =>
      rw [compare_key]
      have hoff : off < buf.length := by omega
      rw [List.drop_eq_getElem_cons hoff]
      rw [List.take_succ_cons, lexCompare]
  | cons t ts ih =>
    intro off key_len hb
    cases key_len with
    | zero => simp [compare_key, lexCompare]
    | succ k =>
      rw [compare_key]
      have hoff : off < buf.length := by omega
      have hbyte : byteAt buf off = buf[off] := by
        rw [byteAt, List.getD_eq_getElem?_getD, List.getElem?_eq_getElem hoff]
        rfl
      rw [List.drop_eq_getElem_cons hoff, List.take_succ_cons, lexCompare, hbyte]
      by_cases h1 : buf[off] < t
      · rw [if_pos h1, if_pos h1]
      · rw [if_neg h1, if_neg h1]
        by_cases h2 : t < buf[off]
        · rw [if_pos h2, if_pos h2]
        · rw [if_neg h2, if_neg h2]
          have : buf.drop (off + 1) = (buf.drop off).drop 1 := by
            rw [List.drop_drop]
          exact ih (off + 1) k (by omega)

theorem key_bytes_match_iff (buf : List Nat) :
    ∀ key off, off + key.length ≤ buf.length →
      (key_bytes_match buf off key = true ↔ (buf.drop off).take key.length = key) := by
  intro key
  induction key with
  | nil =>
    intro off hb
    simp [key_bytes_match]
  | cons k ks ih =>
    intro off hb
    have hoff : off < buf.length := by
      simp only [List.length_cons] at hb
      omega
    have hbyte : byteAt buf off = buf[off] := by
      rw [byteAt, List.getD_eq_getElem?_getD, List.getElem?_eq_getElem hoff]
      rfl
    rw [key_bytes_match, List.length_cons, List.drop_eq_getElem_cons hoff,
      List.take_succ_cons]
    by_cases h1 : byteAt buf off = k
    · rw [if_pos h1]
      rw [ih (off + 1) (by simp only [List.length_cons] at hb; omega)]
      rw [hbyte] at h1
      simp [h1]
    · rw [if_neg h1]
      rw [hbyte] at h1
      simp [h1]

theorem byteAt_eq_getElem (buf : List Nat) (i : Nat) (h : i < buf.length) :
    byteAt buf i = buf[i] := by
  rw [byteAt, List.getD_eq_getElem?_getD, List.getElem?_eq_getElem h]
  rfl

/-!
The line-start index: membership bounds, and `build_index` as the
truncation of the unbounded walk.
-/

theorem lineStartsAll_mem_spec (buf : List Nat) (e : Nat) :
    ∀ pos q, q ∈ lineStartsAll buf e pos → pos ≤ q ∧ q < e ∧ byteAt buf q ≠ 10 := by
  have main : ∀ n pos q, e - pos ≤ n → q ∈ lineStartsAll buf e pos →
      pos ≤ q ∧ q < e ∧ byteAt buf q ≠ 10 := by
    intro n
    induction n with
    | zero =>
      intro pos q hn hq
      have hpe : ¬ skip_blank buf e pos < e := by
        have := (skip_blank_spec buf e pos).1
        omega
      rw [lineStartsAll_eq, if_neg hpe] at hq
      exact absurd hq (List.not_mem_nil q)
    | succ n ih =>
      intro pos q hn hq
      by_cases hpe : skip_blank buf e pos < e
      · have hskip := skip_blank_spec buf e pos
        have hadv := line_next_bounds buf e (skip_blank buf e pos) hpe
        rw [lineStartsAll_eq, if_pos hpe, List.mem_cons] at hq
        rcases hq with rfl | hq
        · exact ⟨hskip.1, hpe, hskip.2.1 hpe⟩
        · have := ih (line_next buf e (skip_blank buf e pos)) q (by omega) hq
          exact ⟨by omega, this.2.1, this.2.2⟩
      · rw [lineStartsAll_eq, if_neg hpe] at hq
        exact absurd hq (List.not_mem_nil q)
  exact fun pos q => main (e - pos) pos q (Nat.le_refl _)

theorem build_index_eq_take (buf : List Nat) (e : Nat) :
    ∀ p c, p ≤ e → build_index buf e p c = (lineStartsAll buf e p).take (64 - c) := by
  have main : ∀ n p c, e - p ≤ n → p ≤ e →
      build_index buf e p c = (lineStartsAll buf e p).take (64 - c) := by
    intro n
    induction n with
    | zero =>
      intro p c hn hpe
      have hp : ¬ p < e := by omega
      rw [build_index, lineStartsAll_eq]
      have hsb : ¬ skip_blank buf e p < e := by
        have := (skip_blank_spec buf e p).1
        omega
      rw [if_neg (by intro hcon; exact hp hcon.1), if_neg hsb]
      simp
    | succ n ih =>
      intro p c hn hpe
      rw [build_index, lineStartsAll_eq]
      by_cases hp : p < e
      · by_cases hc : c < 64
        · rw [if_pos ⟨hp, hc⟩]
          have hskip := skip_blank_spec buf e p
          by_cases hq : skip_blank buf e p < e
          · rw [if_pos hq, if_pos hq]
            have hr : skip_line buf e (skip_blank buf e p) =
                line_end_pos buf e (skip_blank buf e p) := by
              rw [skip_line_eq buf e _ (hskip.2.2.1 hpe), line_end_pos]
            have hle := line_end_bounds buf e (skip_blank buf e p) hq
            have hnext : (if skip_line buf e (skip_blank buf e p) < e then
                skip_line buf e (skip_blank buf e p) + 1
                else skip_line buf e (skip_blank buf e p)) =
                line_next buf e (skip_blank buf e p) := by
              rw [hr, line_next]
              by_cases hlt : line_end_pos buf e (skip_blank buf e p) < e
              · rw [if_pos hlt, if_pos hlt]
              · rw [if_neg hlt, if_neg hlt]
                omega
            rw [hnext]
            have hadv0 := line_next_bounds buf e (skip_blank buf e p) hq
            have hadv := line_next_bounds buf e (skip_blank buf e p) hq
            rw [ih (line_next buf e (skip_blank buf e p)) (c + 1) (by omega) (by omega)]
            have htake : 64 - c = (64 - (c + 1)) + 1 := by omega
            rw [htake, List.take_succ_cons]
          · rw [if_neg hq, if_neg hq]
            simp
        · rw [if_neg (by intro hcon; exact hc hcon.2)]
          have : 64 - c = 0 := by omega
          rw [this]
          simp
      · rw [if_neg (by intro hcon; exact hp hcon.1)]
        have hsb : ¬ skip_blank buf e p < e := by
          have := (skip_blank_spec buf e p).1
          omega
        rw [if_neg hsb]
        simp
  exact fun p c hpe => main (e - p) p c (Nat.le_refl _) hpe

/-!
The NUL scan of the validator and the content of a line.
-/

theorem line_has_nul_iff (buf : List Nat) (e2 : Nat) :
    ∀ s, line_has_nul buf s e2 = true ↔ ∃ j, s ≤ j ∧ j < e2 ∧ byteAt buf j = 0 := by
  have main : ∀ n s, e2 - s ≤ n →
      (line_has_nul buf s e2 = true ↔ ∃ j, s ≤ j ∧ j < e2 ∧ byteAt buf j = 0) := by
    intro n
    induction n with
    | zero =>
      intro s hn
      rw [line_has_nul]
      have hse : ¬ s < e2 := by omega
      rw [if_neg hse]
      constructor
      · intro h; exact absurd h (by simp)
      · rintro ⟨j, hj1, hj2, hj3⟩; omega
    | succ n ih =>
      intro s hn
      rw [line_has_nul]
      by_cases hse : s < e2
      · rw [if_pos hse]
        by_cases hz : byteAt buf s = 0
        · rw [if_pos hz]
          exact ⟨fun _ => ⟨s, Nat.le_refl _, hse, hz⟩, fun _ => rfl⟩
        · rw [if_neg hz]
          rw [ih (s + 1) (by omega)]
          constructor
          · rintro ⟨j, hj1, hj2, hj3⟩
            exact ⟨j, by omega, hj2, hj3⟩
          · rintro ⟨j, hj1, hj2, hj3⟩
            refine ⟨j, ?_, hj2, hj3⟩
            rcases Nat.eq_or_lt_of_le hj1 with rfl | hlt
            · exact absurd hj3 hz
            · omega
      · rw [if_neg hse]
        constructor
        · intro h; exact absurd h (by simp)
        · rintro ⟨j, hj1, hj2, hj3⟩; omega
  exact fun s => main (e2 - s) s (Nat.le_refl _)

theorem lineAt_eq_span (buf : List Nat) :
    ∀ i, i ≤ buf.length →
      lineAt buf i = (buf.drop i).take (line_end_pos buf buf.length i - i) := by
  have main : ∀ n i, buf.length - i ≤ n → i ≤ buf.length →
      lineAt buf i = (buf.drop i).take (line_end_pos buf buf.length i - i) := by
    intro n
    induction n with
    | zero =>
      intro i hn hi
      have : i = buf.length := by omega
      subst this
      rw [lineAt, List.drop_length]
      simp
    | succ n ih =>
      intro i hn hi
      by_cases hieq : i = buf.length
      · subst hieq
        rw [lineAt, List.drop_length]
        simp
      · have hilt : i < buf.length := by omega
        have hbyte : byteAt buf i = buf[i] := byteAt_eq_getElem buf i hilt
        rw [lineAt, List.drop_eq_getElem_cons hilt, List.takeWhile_cons]
        by_cases h10 : buf[i] = 10
        · have hfc : find_char buf i buf.length 10 = some i := by
            rw [find_char, if_pos hilt, if_pos (hbyte.trans h10)]
          rw [line_end_pos, hfc]
          simp [h10]
        · have hfc : find_char buf i buf.length 10 = find_char buf (i + 1) buf.length 10 := by
            rw [find_char, if_pos hilt, if_neg (by rw [hbyte]; exact h10)]
          have hle : line_end_pos buf buf.length i = line_end_pos buf buf.length (i + 1) := by
            rw [line_end_pos, line_end_pos, hfc]
          have hge : i + 1 ≤ line_end_pos buf buf.length (i + 1) ∨ i + 1 = buf.length := by
            by_cases hnext : i + 1 < buf.length
            · exact Or.inl (line_end_bounds buf buf.length (i + 1) hnext).1
            · exact Or.inr (by omega)
          have hcond : (!(buf[i] == 10)) = true := by
            simp [h10]
          rw [if_pos hcond, hle]
          have hrec := ih (i + 1) (by omega) (by omega)
          rw [lineAt] at hrec
          rcases hge with hge | hge
          · have hsplit : line_end_pos buf buf.length (i + 1) - i =
                (line_end_pos buf buf.length (i + 1) - (i + 1)) + 1 := by omega
            rw [hsplit, List.take_succ_cons, ← hrec]
          · have hdrop : buf.drop (i + 1) = [] := by
              rw [hge, List.drop_length]
            have hle2 : line_end_pos buf buf.length (i + 1) = buf.length := by
              rw [line_end_pos]
              have hnone : find_char buf (i + 1) buf.length 10 = none := by
                rw [find_char, if_neg (by omega)]
              rw [hnone]
              rfl
            rw [hdrop, hle2]
            have hone : buf.length - i = 1 := by omega
            rw [hone]
            simp
  exact fun i => main (buf.length - i) i (Nat.le_refl _)

theorem mem_span_iff (buf : List Nat) (c : Nat) :
    ∀ n s, s + n ≤ buf.length →
      (c ∈ (buf.drop s).take n ↔ ∃ j, s ≤ j ∧ j < s + n ∧ byteAt buf j = c) := by
  intro n
  induction n with
  | zero =>
    intro s h
    simp only [List.take_zero, List.not_mem_nil, false_iff]
    rintro ⟨j, hj1, hj2, hj3⟩
    omega
  | succ n ih =>
    intro s h
    have hs : s < buf.length := by omega
    rw [List.drop_eq_getElem_cons hs, List.take_succ_cons, List.mem_cons]
    rw [ih (s + 1) (by omega)]
    constructor
    · rintro (rfl | ⟨j, hj1, hj2, hj3⟩)
      · exact ⟨s, Nat.le_refl _, by omega, byteAt_eq_getElem buf s hs⟩
      · exact ⟨j, by omega, by omega, hj3⟩
    · rintro ⟨j, hj1, hj2, hj3⟩
      rcases Nat.eq_or_lt_of_le hj1 with rfl | hlt
      · left
        rw [byteAt_eq_getElem buf s hs] at hj3
        exact hj3.symm
      · right
        exact ⟨j, by omega, by omega, hj3⟩

theorem line_end_no_newline (buf : List Nat) (e pos : Nat) :
    ∀ j, pos ≤ j → j < line_end_pos buf e pos → byteAt buf j ≠ 10 := by
  intro j hj1 hj2
  rw [line_end_pos] at hj2
  rcases hf : find_char buf pos e 10 with _ | le
  · rw [hf] at hj2
    simp only [Option.getD_none] at hj2
    exact find_char_none_spec buf e 10 pos hf j hj1 hj2
  · rw [hf] at hj2
    simp only [Option.getD_some] at hj2
    exact (find_char_some_spec buf e 10 pos le hf).2.2.2 j hj1 hj2

theorem line_end_newline (buf : List Nat) (e pos : Nat)
    (h : line_end_pos buf e pos < e) : byteAt buf (line_end_pos buf e pos) = 10 := by
  rw [line_end_pos] at h ⊢
  rcases hf : find_char buf pos e 10 with _ | le
  · rw [hf] at h
    simp only [Option.getD_none] at h
    exact absurd h (Nat.lt_irrefl e)
  · simp only [Option.getD_some]
    exact (find_char_some_spec buf e 10 pos le hf).2.2.1

theorem line_end_bounds_weak (buf : List Nat) (i : Nat) (hi : i ≤ buf.length) :
    i ≤ line_end_pos buf buf.length i ∧ line_end_pos buf buf.length i ≤ buf.length := by
  rcases Nat.lt_or_ge i buf.length with hlt | hge
  · exact line_end_bounds buf buf.length i hlt
  · have hieq : i = buf.length := by omega
    have hfc : find_char buf i buf.length 10 = none := by
      rw [find_char, if_neg (by omega)]
    rw [line_end_pos, hfc]
    simp only [Option.getD_none]
    omega

theorem mem_lineAt_iff (buf : List Nat) (i c : Nat) (hi : i ≤ buf.length) :
    c ∈ lineAt buf i ↔
      ∃ j, i ≤ j ∧ j < line_end_pos buf buf.length i ∧ byteAt buf j = c := by
  have hwk := line_end_bounds_weak buf i hi
  rw [lineAt_eq_span buf i hi,
    mem_span_iff buf c (line_end_pos buf buf.length i - i) i (by omega)]
  have harith : i + (line_end_pos buf buf.length i - i) = line_end_pos buf buf.length i := by
    omega
  rw [harith]

theorem lineAt_head (buf : List Nat) (i : Nat) (hi : i < buf.length)
    (hb : byteAt buf i ≠ 10) : (lineAt buf i).head? = some (byteAt buf i) := by
  have hwk := line_end_bounds buf buf.length i hi
  have hgt : i < line_end_pos buf buf.length i := by
    rcases Nat.eq_or_lt_of_le hwk.1 with heq | hlt
    · exfalso
      exact hb (heq ▸ line_end_newline buf buf.length i (by omega))
    · exact hlt
  rw [lineAt_eq_span buf i (by omega), List.drop_eq_getElem_cons hi]
  have hsplit : line_end_pos buf buf.length i - i =
      (line_end_pos buf buf.length i - i - 1) + 1 := by omega
  rw [hsplit, List.take_succ_cons, List.head?_cons, byteAt_eq_getElem buf i hi]

theorem validate_from_false_iff (buf : List Nat) :
    ∀ pos, pos ≤ buf.length →
      (maclabel_validate_from buf buf.length pos = false ↔
        ∃ i, pos ≤ i ∧ i < buf.length ∧ (i = pos ∨ byteAt buf (i - 1) = 10) ∧
          byteAt buf i ≠ 10 ∧ bad_line_cond buf i) := by
  have main : ∀ n pos, buf.length - pos ≤ n → pos ≤ buf.length →
      (maclabel_validate_from buf buf.length pos = false ↔
        ∃ i, pos ≤ i ∧ i < buf.length ∧ (i = pos ∨ byteAt buf (i - 1) = 10) ∧
          byteAt buf i ≠ 10 ∧ bad_line_cond buf i) := by
    intro n
    induction n with
    | zero =>
      intro pos hn hpos
      rw [maclabel_validate_from, dif_neg (by omega)]
      constructor
      · intro h
        exact absurd h (by simp)
      · rintro ⟨i, h1, h2, _, _, _⟩
        omega
    | succ n ih =>
      intro pos hn hpos
      by_cases hpe : pos < buf.length
      · by_cases hb : byteAt buf pos = 10
        · rw [maclabel_validate_from, dif_pos hpe, if_pos hb]
          rw [ih (pos + 1) (by omega) (by omega)]
          constructor
          · rintro ⟨i, h1, h2, h3, h4, h5⟩
            refine ⟨i, by omega, h2, Or.inr ?_, h4, h5⟩
            rcases h3 with rfl | h3
            · exact hb
            · exact h3
          · rintro ⟨i, h1, h2, h3, h4, h5⟩
            have hne : i ≠ pos := by
              rintro rfl
              exact h4 hb
            refine ⟨i, by omega, h2, Or.inr ?_, h4, h5⟩
            rcases h3 with rfl | h3
            · exact absurd rfl hne
            · exact h3
        · rw [maclabel_validate_from, dif_pos hpe, if_neg hb]
          have hwk := line_end_bounds buf buf.length pos hpe
          by_cases hnul : line_has_nul buf pos (line_end_pos buf buf.length pos) = true
          · rw [if_pos hnul]
            constructor
            · intro _
              refine ⟨pos, Nat.le_refl _, hpe, Or.inl rfl, hb, Or.inr (Or.inr ?_)⟩
              rw [mem_lineAt_iff buf pos 0 (by omega)]
              exact (line_has_nul_iff buf (line_end_pos buf buf.length pos) pos).1 hnul
            · intro _
              rfl
          · rw [if_neg hnul]
            split
            · rename_i hf
              constructor
              · intro _
                refine ⟨pos, Nat.le_refl _, hpe, Or.inl rfl, hb, Or.inl ?_⟩
                rw [mem_lineAt_iff buf pos 61 (by omega)]
                rintro ⟨j, hj1, hj2, hj3⟩
                exact find_char_none_spec buf (line_end_pos buf buf.length pos) 61 pos
                  hf j hj1 hj2 hj3
              · intro _
                rfl
            · rename_i eqp hf
              have hfs := find_char_some_spec buf (line_end_pos buf buf.length pos) 61
                pos eqp hf
              by_cases heqp : eqp = pos
              · rw [if_pos heqp]
                constructor
                · intro _
                  refine ⟨pos, Nat.le_refl _, hpe, Or.inl rfl, hb, Or.inr (Or.inl ?_)⟩
                  rw [lineAt_head buf pos hpe hb]
                  have hpos61 : byteAt buf pos = 61 := by
                    rw [← heqp]
                    exact hfs.2.2.1
                  rw [hpos61]
                · intro _
                  rfl
              · rw [if_neg heqp]
                have hnb := line_next_bounds buf buf.length pos hpe
                rw [ih (line_next buf buf.length pos) (by omega) (by omega)]
                have hnonl := line_end_no_newline buf buf.length pos
                have hub : line_next buf buf.length pos ≤ line_end_pos buf buf.length pos + 1 := by
                  rw [line_next]
                  by_cases hlt : line_end_pos buf buf.length pos < buf.length
                  · rw [if_pos hlt]
                  · rw [if_neg hlt]
                    omega
                constructor
                · rintro ⟨i, h1, h2, h3, h4, h5⟩
                  refine ⟨i, by omega, h2, Or.inr ?_, h4, h5⟩
                  rcases h3 with rfl | h3
                  · by_cases hlt : line_end_pos buf buf.length pos < buf.length
                    · have hnx : line_next buf buf.length pos =
                          line_end_pos buf buf.length pos + 1 := by
                        rw [line_next, if_pos hlt]
                      rw [hnx]
                      have harith : line_end_pos buf buf.length pos + 1 - 1 =
                          line_end_pos buf buf.length pos := rfl
                      rw [harith]
                      exact line_end_newline buf buf.length pos hlt
                    · exfalso
                      have hnx : line_next buf buf.length pos = buf.length := by
                        rw [line_next, if_neg hlt]
                      omega
                  · exact h3
                · rintro ⟨i, h1, h2, h3, h4, h5⟩
                  have hne : i ≠ pos := by
                    rintro rfl
                    rcases h5 with hbad | hbad | hbad
                    · apply hbad
                      rw [mem_lineAt_iff buf i 61 (by omega)]
                      exact ⟨eqp, hfs.1, hfs.2.1, hfs.2.2.1⟩
                    · rw [lineAt_head buf i hpe h4] at hbad
                      simp only [Option.some.injEq] at hbad
                      have hlt2 : i < eqp := by omega
                      exact hfs.2.2.2 i (Nat.le_refl _) hlt2 hbad
                    · apply hnul
                      rw [line_has_nul_iff buf (line_end_pos buf buf.length i) i]
                      rw [mem_lineAt_iff buf i 0 (by omega)] at hbad
                      exact hbad
                  have h3' : byteAt buf (i - 1) = 10 := by
                    rcases h3 with rfl | h3
                    · exact absurd rfl hne
                    · exact h3
                  have hige : line_next buf buf.length pos ≤ i := by
                    by_contra hcon
                    push_neg at hcon
                    exact hnonl (i - 1) (by omega) (by omega) h3'
                  exact ⟨i, hige, h2, Or.inr h3', h4, h5⟩
      · rw [maclabel_validate_from, dif_neg hpe]
        constructor
        · intro h
          exact absurd h (by simp)
        · rintro ⟨i, h1, h2, _, _, _⟩
          omega
  exact fun pos => main (buf.length - pos) pos (Nat.le_refl _)

theorem parser_next_entry_spec (buf : List Nat) (e : Nat) :
    ∀ pos ent np, maclabel_parser_next buf e pos = some (ent, np) →
      ent.value = ent.key + ent.key_len + 1 ∧
      byteAt buf (ent.key + ent.key_len) = 61 ∧
      ent.value + ent.value_len ≤ e ∧
      (∀ j, j < ent.key_len → byteAt buf (ent.key + j) ≠ 61 ∧ byteAt buf (ent.key + j) ≠ 10) ∧
      (∀ j, j < ent.value_len → byteAt buf (ent.value + j) ≠ 10) := by
  have main : ∀ n pos ent np, e - pos ≤ n →
      maclabel_parser_next buf e pos = some (ent, np) →
      ent.value = ent.key + ent.key_len + 1 ∧
      byteAt buf (ent.key + ent.key_len) = 61 ∧
      ent.value + ent.value_len ≤ e ∧
      (∀ j, j < ent.key_len → byteAt buf (ent.key + j) ≠ 61 ∧ byteAt buf (ent.key + j) ≠ 10) ∧
      (∀ j, j < ent.value_len → byteAt buf (ent.value + j) ≠ 10) := by
    intro n
    induction n with
    | zero =>
      intro pos ent np hn h
      have hpe : ¬ skip_blank buf e pos < e := by
        have := (skip_blank_spec buf e pos).1
        omega
      rw [parser_next_eq, if_neg hpe] at h
      exact absurd h (by simp)
    | succ n ih =>
      intro pos ent np hn h
      by_cases hpe : skip_blank buf e pos < e
      · have hskip := (skip_blank_spec buf e pos).1
        have hnb := line_next_bounds buf e (skip_blank buf e pos) hpe
        rw [parser_next_eq, if_pos hpe] at h
        split at h
        · exact ih (line_next buf e (skip_blank buf e pos)) ent np (by omega) h
        · rename_i eqp hf
          simp only [Option.some.injEq, Prod.mk.injEq] at h
          obtain ⟨hent, hnp⟩ := h
          have hfs := find_char_some_spec buf
            (line_end_pos buf e (skip_blank buf e pos)) 61 (skip_blank buf e pos) eqp hf
          have hleb := line_end_bounds buf e (skip_blank buf e pos) hpe
          have hnonl := line_end_no_newline buf e (skip_blank buf e pos)
          rw [← hent]
          refine ⟨?_, ?_, ?_, ?_, ?_⟩
          · simp only []
            omega
          · simp only []
            have harith : skip_blank buf e pos + (eqp - skip_blank buf e pos) = eqp := by
              omega
            rw [harith]
            exact hfs.2.2.1
          · simp only []
            omega
          · intro j hj
            simp only [] at hj ⊢
            constructor
            · exact hfs.2.2.2 (skip_blank buf e pos + j) (by omega) (by omega)
            · exact hnonl (skip_blank buf e pos + j) (by omega) (by omega)
          · intro j hj
            simp only [] at hj ⊢
            exact hnonl (eqp + 1 + j) (by omega) (by omega)
      · rw [parser_next_eq, if_neg hpe] at h
        exact absurd h (by simp)
  exact fun pos ent np => main (e - pos) pos ent np (Nat.le_refl _)

/-!
Agreement of the two lookups.  A well-formed line's entry matches the
search key exactly when its key equals the key, the linear search is
characterised by the (unique) matching line, and the binary search
maintains the classic bracketing invariant.
-/

theorem lineKey_eq_take (buf : List Nat) (q eqp : Nat)
    (hq : q < buf.length)
    (hf : find_char buf q (line_end_pos buf buf.length q) 61 = some eqp) :
    lineKey buf buf.length q = (buf.drop q).take (eqp - q) ∧
      (lineKey buf buf.length q).length = eqp - q := by
  have hfs := find_char_some_spec buf (line_end_pos buf buf.length q) 61 q eqp hf
  have hleb := line_end_bounds buf buf.length q hq
  rw [lineKey, hf]
  simp only [Option.getD_some]
  refine ⟨trivial, ?_⟩
  rw [List.length_take, List.length_drop]
  omega

theorem entry_matches_iff (buf key : List Nat) (q eqp : Nat)
    (hq : q < buf.length)
    (hf : find_char buf q (line_end_pos buf buf.length q) 61 = some eqp) :
    (entry_matches buf key
        ⟨q, eqp - q, eqp + 1, line_end_pos buf buf.length q - (eqp + 1)⟩ = true)
      ↔ lineKey buf buf.length q = key := by
  have hfs := find_char_some_spec buf (line_end_pos buf buf.length q) 61 q eqp hf
  have hleb := line_end_bounds buf buf.length q hq
  obtain ⟨hlkey, hlen⟩ := lineKey_eq_take buf q eqp hq hf
  rw [entry_matches]
  dsimp only
  by_cases hl : eqp - q = key.length
  · rw [if_pos hl]
    rw [key_bytes_match_iff buf key q (by omega)]
    rw [hlkey, hl]
  · rw [if_neg hl]
    constructor
    · intro hcon
      exact absurd hcon (by simp)
    · intro hcon
      exfalso
      apply hl
      rw [← hcon, hlen]

theorem find_filterMap_unique {α β : Type} (p : β → Bool) (f : α → Option β) :
    ∀ (L : List α) (q : α) (b : β), q ∈ L → f q = some b → p b = true →
      (∀ x ∈ L, ∀ y, f x = some y → p y = true → y = b) →
      (L.filterMap f).find? p = some b := by
  intro L
  induction L with
  | nil =>
    intro q b hq
    exact absurd hq (List.not_mem_nil q)
  | cons a L ih =>
    intro q b hq hfq hpb huniq
    rcases hfa : f a with _ | b2
    · rw [List.filterMap_cons_none hfa]
      have hqL : q ∈ L := by
        rcases List.mem_cons.1 hq with rfl | h
        · rw [hfa] at hfq
          exact absurd hfq (by simp)
        · exact h
      exact ih q b hqL hfq hpb (fun x hx => huniq x (List.mem_cons_of_mem a hx))
    · rw [List.filterMap_cons_some hfa]
      by_cases hpb2 : p b2 = true
      · have hb2 : b2 = b := huniq a (List.mem_cons_self a L) b2 hfa hpb2
        rw [List.find?_cons_of_pos _ hpb2, hb2]
      · rw [List.find?_cons_of_neg _ (by simpa using hpb2)]
        have hqL : q ∈ L := by
          rcases List.mem_cons.1 hq with rfl | h
          · rw [hfa] at hfq
            simp only [Option.some.injEq] at hfq
            rw [hfq] at hpb2
            exact absurd hpb hpb2
          · exact h
        exact ih q b hqL hfq hpb (fun x hx => huniq x (List.mem_cons_of_mem a hx))

theorem find_linear_from_no_match (buf key : List Nat) (v : Nat × Nat)
    (hwf : ∀ q ∈ lineStartsAll buf buf.length 0, line_ok buf buf.length q = true)
    (hno : ∀ q ∈ lineStartsAll buf buf.length 0, lineKey buf buf.length q ≠ key) :
    maclabel_find_linear_from buf buf.length key 0 v = (false, v) := by
  rw [find_linear_from_eq, entries_from_eq_filterMap]
  have hfind : ((lineStartsAll buf buf.length 0).filterMap
      (entry_of buf buf.length)).find? (entry_matches buf key) = none := by
    rw [List.find?_eq_none]
    intro ent hent hcon
    rw [List.mem_filterMap] at hent
    obtain ⟨q, hq, hfq⟩ := hent
    have hqb := lineStartsAll_mem_spec buf buf.length 0 q hq
    have hok := hwf q hq
    rw [line_ok] at hok
    rcases hf : find_char buf q (line_end_pos buf buf.length q) 61 with _ | eqp
    · rw [hf] at hok
      exact absurd hok (by simp)
    · rw [entry_of, hf, Option.map_some'] at hfq
      simp only [Option.some.injEq] at hfq
      rw [← hfq] at hcon
      exact hno q hq ((entry_matches_iff buf key q eqp hqb.2.1 hf).1 hcon)
  rw [hfind]

theorem find_linear_from_match (buf key : List Nat) (v : Nat × Nat) (q eqp : Nat)
    (hwf : ∀ x ∈ lineStartsAll buf buf.length 0, line_ok buf buf.length x = true)
    (hq : q ∈ lineStartsAll buf buf.length 0)
    (hf : find_char buf q (line_end_pos buf buf.length q) 61 = some eqp)
    (hkey : lineKey buf buf.length q = key)
    (huniq : ∀ x ∈ lineStartsAll buf buf.length 0, lineKey buf buf.length x = key → x = q) :
    maclabel_find_linear_from buf buf.length key 0 v =
      (true, (eqp + 1, line_end_pos buf buf.length q - (eqp + 1))) := by
  have hqb := lineStartsAll_mem_spec buf buf.length 0 q hq
  have huq : ∀ x ∈ lineStartsAll buf buf.length 0, ∀ y, entry_of buf buf.length x = some y →
      entry_matches buf key y = true →
      y = ⟨q, eqp - q, eqp + 1, line_end_pos buf buf.length q - (eqp + 1)⟩ := by
    intro x hx y hfy hpy
    have hxb := lineStartsAll_mem_spec buf buf.length 0 x hx
    rcases hfx : find_char buf x (line_end_pos buf buf.length x) 61 with _ | ex
    · rw [entry_of, hfx] at hfy
      exact absurd hfy (by simp)
    · rw [entry_of, hfx, Option.map_some'] at hfy
      simp only [Option.some.injEq] at hfy
      rw [← hfy] at hpy
      have hkx := (entry_matches_iff buf key x ex hxb.2.1 hfx).1 hpy
      have hxq : x = q := huniq x hx hkx
      subst hxq
      have hex : ex = eqp := by
        have := hfx.symm.trans hf
        exact Option.some.inj this
      rw [← hfy, hex]
  rw [find_linear_from_eq, entries_from_eq_filterMap]
  have hfind := find_filterMap_unique (entry_matches buf key) (entry_of buf buf.length)
    (lineStartsAll buf buf.length 0) q
    ⟨q, eqp - q, eqp + 1, line_end_pos buf buf.length q - (eqp + 1)⟩
    hq (by rw [entry_of, hf, Option.map_some'])
    ((entry_matches_iff buf key q eqp hqb.2.1 hf).2 hkey) huq
  rw [hfind]

theorem getD_zero_eq (L : List Nat) (i : Nat) (h : i < L.length) : L.getD i 0 = L[i] :=
  byteAt_eq_getElem L i h

theorem bsearch_eq_linear (buf key : List Nat) (L : List Nat)
    (hLdef : L = lineStartsAll buf buf.length 0)
    (hwf0 : ∀ q ∈ lineStartsAll buf buf.length 0, line_ok buf buf.length q = true)
    (hsort0 : ((lineStartsAll buf buf.length 0).map (lineKey buf buf.length)).Pairwise
      (fun a b => lexCompare a b = -1)) :
    ∀ m lo hi v, hi - lo ≤ m → hi ≤ L.length →
      (∀ i, i < lo → i < L.length →
        lexCompare (lineKey buf buf.length (L.getD i 0)) key = -1) →
      (∀ i, hi ≤ i → i < L.length →
        lexCompare (lineKey buf buf.length (L.getD i 0)) key = 1) →
      bsearch buf buf.length key L lo hi v =
        maclabel_find_linear_from buf buf.length key 0 v := by
  have hwf : ∀ q ∈ L, line_ok buf buf.length q = true := by
    rw [hLdef]; exact hwf0
  have hsort : (L.map (lineKey buf buf.length)).Pairwise
      (fun a b => lexCompare a b = -1) := by
    rw [hLdef]; exact hsort0
  have hsIdx : ∀ i j, i < L.length → j < L.length → i < j →
      lexCompare (lineKey buf buf.length (L.getD i 0))
        (lineKey buf buf.length (L.getD j 0)) = -1 := by
    intro i j hi2 hj2 hij
    have hp := List.pairwise_iff_getElem.1 hsort i j
      (by rw [List.length_map]; exact hi2) (by rw [List.length_map]; exact hj2) hij
    rw [List.getElem_map, List.getElem_map] at hp
    rw [getD_zero_eq L i hi2, getD_zero_eq L j hj2]
    exact hp
  have hkne : ∀ a b : List Nat, lexCompare a b = -1 → a ≠ b := by
    intro a b hab hcon
    rw [hcon] at hab
    rw [(lexCompare_eq_zero_iff b b).2 rfl] at hab
    exact absurd hab (by decide)
  have hkne1 : ∀ a b : List Nat, lexCompare a b = 1 → a ≠ b := by
    intro a b hab hcon
    rw [hcon] at hab
    rw [(lexCompare_eq_zero_iff b b).2 rfl] at hab
    exact absurd hab (by decide)
  intro m
  induction m with
  | zero =>
    intro lo hi v hm hhi hI1 hI2
    have hlh : ¬ lo < hi := by omega
    rw [bsearch, dif_neg hlh]
    refine (find_linear_from_no_match buf key v hwf0 ?_).symm
    intro q hq
    rw [← hLdef] at hq
    obtain ⟨i, hi2, heq⟩ := List.mem_iff_getElem.1 hq
    have hgd : L.getD i 0 = q := by rw [getD_zero_eq L i hi2]; exact heq
    rcases Nat.lt_or_ge i lo with hc | hc
    · rw [← hgd]
      exact hkne _ _ (hI1 i hc hi2)
    · rw [← hgd]
      exact hkne1 _ _ (hI2 i (by omega) hi2)
  | succ m ihm =>
    intro lo hi v hm hhi hI1 hI2
    by_cases hlh : lo < hi
    · rw [bsearch, dif_pos hlh]
      dsimp only
      have hhalf : (hi - lo) / 2 < hi - lo := Nat.div_lt_self (by omega) (by omega)
      have hmidlt : lo + (hi - lo) / 2 < hi := by omega
      have hmidlen : lo + (hi - lo) / 2 < L.length := by omega
      have hmem : L.getD (lo + (hi - lo) / 2) 0 ∈ L := by
        rw [getD_zero_eq L _ hmidlen]
        exact List.getElem_mem _
      have hok := hwf _ hmem
      rw [line_ok] at hok
      split
      · rename_i hf
        rw [hf] at hok
        exact absurd hok (by simp)
      · rename_i eqp hf
        have hmem0 : L.getD (lo + (hi - lo) / 2) 0 ∈ lineStartsAll buf buf.length 0 := by
          rw [← hLdef]; exact hmem
        have hqb := lineStartsAll_mem_spec buf buf.length 0 _ hmem0
        have hfs := find_char_some_spec buf
          (line_end_pos buf buf.length (L.getD (lo + (hi - lo) / 2) 0)) 61
          (L.getD (lo + (hi - lo) / 2) 0) eqp hf
        have hleb := line_end_bounds buf buf.length (L.getD (lo + (hi - lo) / 2) 0) hqb.2.1
        obtain ⟨hlkey, hlklen⟩ :=
          lineKey_eq_take buf (L.getD (lo + (hi - lo) / 2) 0) eqp hqb.2.1 hf
        have hcmp : compare_key buf (L.getD (lo + (hi - lo) / 2) 0)
            (eqp - L.getD (lo + (hi - lo) / 2) 0) key =
            lexCompare (lineKey buf buf.length (L.getD (lo + (hi - lo) / 2) 0)) key := by
          rw [compare_key_eq_lex buf key (L.getD (lo + (hi - lo) / 2) 0)
            (eqp - L.getD (lo + (hi - lo) / 2) 0) (by omega), hlkey]
        rw [hcmp]
        rcases lexCompare_trichotomy
            (lineKey buf buf.length (L.getD (lo + (hi - lo) / 2) 0)) key with
          hlex | hlex | hlex
        · rw [hlex]
          rw [if_neg (by decide), if_pos (by decide)]
          refine ihm (lo + (hi - lo) / 2 + 1) hi v (by omega) hhi ?_ hI2
          intro i hilt hi2
          rcases Nat.lt_or_ge i lo with hc | hc
          · exact hI1 i hc hi2
          · rcases Nat.lt_or_ge i (lo + (hi - lo) / 2) with hc2 | hc2
            · exact lexCompare_trans_neg _ _ _ (hsIdx i _ hi2 hmidlen hc2) hlex
            · have hieq : i = lo + (hi - lo) / 2 := by omega
              rw [hieq]
              exact hlex
        · rw [hlex]
          rw [if_pos rfl]
          have hkey := (lexCompare_eq_zero_iff _ _).1 hlex
          refine (find_linear_from_match buf key v (L.getD (lo + (hi - lo) / 2) 0) eqp
            hwf0 hmem0 hf hkey ?_).symm
          intro x hx hkx
          rw [← hLdef] at hx
          obtain ⟨j, hj2, heqj⟩ := List.mem_iff_getElem.1 hx
          have hgdj : L.getD j 0 = x := by rw [getD_zero_eq L j hj2]; exact heqj
          rcases Nat.lt_trichotomy j (lo + (hi - lo) / 2) with hc | hc | hc
          · exfalso
            have hso := hsIdx j _ hj2 hmidlen hc
            rw [hgdj, hkx, ← hkey] at hso
            exact hkne _ _ hso rfl
          · rw [← hgdj, hc]
          · exfalso
            have hso := hsIdx _ j hmidlen hj2 hc
            rw [hgdj, hkx, ← hkey] at hso
            exact hkne _ _ hso rfl
        · rw [hlex]
          rw [if_neg (by decide), if_neg (by decide)]
          refine ihm lo (lo + (hi - lo) / 2) v (by omega) (by omega) hI1 ?_
          intro i hige hi2
          rcases Nat.lt_or_ge i hi with hc | hc
          · rcases Nat.eq_or_lt_of_le hige with hieq | hc2
            · rw [← hieq]
              exact hlex
            · have hso := hsIdx _ i hmidlen hi2 hc2
              have hflip : lexCompare key
                  (lineKey buf buf.length (L.getD (lo + (hi - lo) / 2) 0)) = -1 := by
                rw [lexCompare_flip _ key, hlex]
              have htr := lexCompare_trans_neg _ _ _ hflip hso
              rw [lexCompare_flip (lineKey buf buf.length (L.getD i 0)) key] at htr
              omega
          · exact hI2 i (by omega) hi2
    · rw [bsearch, dif_neg hlh]
      refine (find_linear_from_no_match buf key v hwf0 ?_).symm
      intro q hq
      rw [← hLdef] at hq
      obtain ⟨i, hi2, heq⟩ := List.mem_iff_getElem.1 hq
      have hgd : L.getD i 0 = q := by rw [getD_zero_eq L i hi2]; exact heq
      rcases Nat.lt_or_ge i lo with hc | hc
      · rw [← hgd]
        exact hkne _ _ (hI1 i hc hi2)
      · rw [← hgd]
        exact hkne1 _ _ (hI2 i (by omega) hi2)

theorem find_eq_linear_sorted (buf key : List Nat) (v : Nat × Nat)
    (hwf : ∀ q ∈ lineStartsAll buf buf.length 0, line_ok buf buf.length q = true)
    (hsort : ((lineStartsAll buf buf.length 0).map (lineKey buf buf.length)).Pairwise
      (fun a b => lexCompare a b = -1))
    (hcap : (lineStartsAll buf buf.length 0).length ≤ 64) :
    maclabel_find buf key v = maclabel_find_linear buf key v := by
  rw [maclabel_find]
  have hbi : build_index buf buf.length 0 0 = lineStartsAll buf buf.length 0 := by
    rw [build_index_eq_take buf buf.length 0 0 (Nat.zero_le _)]
    exact List.take_of_length_le (by omega)
  rw [hbi]
  by_cases hfull : 64 ≤ (lineStartsAll buf buf.length 0).length
  · rw [if_pos hfull]
  · rw [if_neg hfull]
    rw [maclabel_find_linear]
    exact bsearch_eq_linear buf key (lineStartsAll buf buf.length 0) rfl hwf hsort
      (lineStartsAll buf buf.length 0).length 0
      (lineStartsAll buf buf.length 0).length v (Nat.le_refl _) (Nat.le_refl _)
      (fun i hi _ => absurd hi (Nat.not_lt_zero i))
      (fun i hige hilt => absurd hige (by omega))

/-!
Frame behaviour of the lookups: the output locations are written exactly
on success, and the boolean result does not depend on their initial
contents.
-/

theorem bsearch_stop (buf : List Nat) (e : Nat) (key lines : List Nat)
    (lo hi : Nat) (v : Nat × Nat) (hlh : ¬ lo < hi) :
    bsearch buf e key lines lo hi v = (false, v) := by
  rw [bsearch, dif_neg hlh]

theorem bsearch_step_none (buf : List Nat) (e : Nat) (key lines : List Nat)
    (lo hi : Nat) (v : Nat × Nat) (hlh : lo < hi)
    (hf : find_char buf (lines.getD (lo + (hi - lo) / 2) 0)
      (line_end_pos buf e (lines.getD (lo + (hi - lo) / 2) 0)) 61 = none) :
    bsearch buf e key lines lo hi v =
      bsearch buf e key lines (lo + (hi - lo) / 2 + 1) hi v := by
  rw [bsearch, dif_pos hlh]
  dsimp only
  rw [hf]

theorem bsearch_step_some (buf : List Nat) (e : Nat) (key lines : List Nat)
    (lo hi : Nat) (v : Nat × Nat) (eqp : Nat) (hlh : lo < hi)
    (hf : find_char buf (lines.getD (lo + (hi - lo) / 2) 0)
      (line_end_pos buf e (lines.getD (lo + (hi - lo) / 2) 0)) 61 = some eqp) :
    bsearch buf e key lines lo hi v =
      (if compare_key buf (lines.getD (lo + (hi - lo) / 2) 0)
          (eqp - lines.getD (lo + (hi - lo) / 2) 0) key = 0 then
        (true, (eqp + 1,
          line_end_pos buf e (lines.getD (lo + (hi - lo) / 2) 0) - (eqp + 1)))
      else if compare_key buf (lines.getD (lo + (hi - lo) / 2) 0)
          (eqp - lines.getD (lo + (hi - lo) / 2) 0) key < 0 then
        bsearch buf e key lines (lo + (hi - lo) / 2 + 1) hi v
      else bsearch buf e key lines lo (lo + (hi - lo) / 2) v) := by
  rw [bsearch, dif_pos hlh]
  dsimp only
  rw [hf]

theorem bsearch_state (buf : List Nat) (e : Nat) (key lines : List Nat) :
    ∀ m lo hi v v2, hi - lo ≤ m →
      (bsearch buf e key lines lo hi v).1 = (bsearch buf e key lines lo hi v2).1 ∧
      ((bsearch buf e key lines lo hi v).1 = false →
        (bsearch buf e key lines lo hi v).2 = v) ∧
      ((bsearch buf e key lines lo hi v).1 = true →
        (bsearch buf e key lines lo hi v).2 = (bsearch buf e key lines lo hi v2).2) := by
  intro m
  induction m with
  | zero =>
    intro lo hi v v2 hm
    have hlh : ¬ lo < hi := by omega
    rw [bsearch_stop buf e key lines lo hi v hlh, bsearch_stop buf e key lines lo hi v2 hlh]
    exact ⟨rfl, fun _ => rfl, fun hcon => absurd hcon (by simp)⟩
  | succ m ihm =>
    intro lo hi v v2 hm
    by_cases hlh : lo < hi
    · have hhalf : (hi - lo) / 2 < hi - lo := Nat.div_lt_self (by omega) (by omega)
      rcases hf : find_char buf (lines.getD (lo + (hi - lo) / 2) 0)
          (line_end_pos buf e (lines.getD (lo + (hi - lo) / 2) 0)) 61 with _ | eqp
      · rw [bsearch_step_none buf e key lines lo hi v hlh hf,
          bsearch_step_none buf e key lines lo hi v2 hlh hf]
        exact ihm (lo + (hi - lo) / 2 + 1) hi v v2 (by omega)
      · rw [bsearch_step_some buf e key lines lo hi v eqp hlh hf,
          bsearch_step_some buf e key lines lo hi v2 eqp hlh hf]
        by_cases hcmp : compare_key buf (lines.getD (lo + (hi - lo) / 2) 0)
            (eqp - lines.getD (lo + (hi - lo) / 2) 0) key = 0
        · rw [if_pos hcmp, if_pos hcmp]
          exact ⟨rfl, fun hcon => absurd hcon (by simp), fun _ => rfl⟩
        · rw [if_neg hcmp, if_neg hcmp]
          by_cases hlt : compare_key buf (lines.getD (lo + (hi - lo) / 2) 0)
              (eqp - lines.getD (lo + (hi - lo) / 2) 0) key < 0
          · rw [if_pos hlt, if_pos hlt]
            exact ihm (lo + (hi - lo) / 2 + 1) hi v v2 (by omega)
          · rw [if_neg hlt, if_neg hlt]
            exact ihm lo (lo + (hi - lo) / 2) v v2 (by omega)
    · rw [bsearch_stop buf e key lines lo hi v hlh, bsearch_stop buf e key lines lo hi v2 hlh]
      exact ⟨rfl, fun _ => rfl, fun hcon => absurd hcon (by simp)⟩

theorem find_linear_from_state (buf : List Nat) (e : Nat) (key : List Nat) :
    ∀ pos v v2,
      (maclabel_find_linear_from buf e key pos v).1 =
        (maclabel_find_linear_from buf e key pos v2).1 ∧
      ((maclabel_find_linear_from buf e key pos v).1 = false →
        (maclabel_find_linear_from buf e key pos v).2 = v) ∧
      ((maclabel_find_linear_from buf e key pos v).1 = true →
        (maclabel_find_linear_from buf e key pos v).2 =
          (maclabel_find_linear_from buf e key pos v2).2) := by
  have main : ∀ n pos v v2, e - pos ≤ n →
      (maclabel_find_linear_from buf e key pos v).1 =
        (maclabel_find_linear_from buf e key pos v2).1 ∧
      ((maclabel_find_linear_from buf e key pos v).1 = false →
        (maclabel_find_linear_from buf e key pos v).2 = v) ∧
      ((maclabel_find_linear_from buf e key pos v).1 = true →
        (maclabel_find_linear_from buf e key pos v).2 =
          (maclabel_find_linear_from buf e key pos v2).2) := by
    intro n
    induction n with
    | zero =>
      intro pos v v2 hn
      have hpe : ¬ skip_blank buf e pos < e := by
        have := (skip_blank_spec buf e pos).1
        omega
      have hnone : maclabel_parser_next buf e pos = none := by
        rw [parser_next_eq, if_neg hpe]
      rw [find_linear_from_of_none buf e key pos v hnone,
        find_linear_from_of_none buf e key pos v2 hnone]
      exact ⟨rfl, fun _ => rfl, fun hcon => absurd hcon (by simp)⟩
    | succ n ih =>
      intro pos v v2 hn
      rcases hcase : maclabel_parser_next buf e pos with _ | ⟨ent, np⟩
      · rw [find_linear_from_of_none buf e key pos v hcase,
          find_linear_from_of_none buf e key pos v2 hcase]
        exact ⟨rfl, fun _ => rfl, fun hcon => absurd hcon (by simp)⟩
      · have hadv := parser_next_advance buf e pos ent np hcase
        rw [find_linear_from_of_some buf e key pos v ent np hcase,
          find_linear_from_of_some buf e key pos v2 ent np hcase]
        by_cases hm : entry_matches buf key ent
        · rw [if_pos hm, if_pos hm]
          exact ⟨rfl, fun hcon => absurd hcon (by simp), fun _ => rfl⟩
        · rw [if_neg hm, if_neg hm]
          exact ih np v v2 (by omega)
  exact fun pos v v2 => main (e - pos) pos v v2 (Nat.le_refl _)

theorem entries_from_length_le (buf : List Nat) (e : Nat) :
    ∀ pos, (maclabel_entries_from buf e pos).length ≤ e - pos := by
  have main : ∀ n pos, e - pos ≤ n → (maclabel_entries_from buf e pos).length ≤ e - pos := by
    intro n
    induction n with
    | zero =>
      intro pos hn
      have hpe : ¬ skip_blank buf e pos < e := by
        have := (skip_blank_spec buf e pos).1
        omega
      rw [entries_from_of_none buf e pos (by rw [parser_next_eq, if_neg hpe])]
      simp
    | succ n ih =>
      intro pos hn
      rcases hcase : maclabel_parser_next buf e pos with _ | ⟨ent, np⟩
      · rw [entries_from_of_none buf e pos hcase]
        simp
      · have hadv := parser_next_advance buf e pos ent np hcase
        rw [entries_from_of_some buf e pos ent np hcase, List.length_cons]
        have := ih np (by omega)
        omega
  exact fun pos => main (e - pos) pos (Nat.le_refl _)

/-!
Concrete buffers used by the claim witnesses and counterexamples.
-/

/-- The buffer "a=1\nb=2\n": two sorted well-formed entries. -/
def exKV : List Nat := [97, 61, 49, 10, 98, 61, 50, 10]

/-- The buffer "=v\n": one non-blank line whose first byte is `=`. -/
def exEmptyKey : List Nat := [61, 118, 10]

/-- The buffer "k=\n": one entry with an empty value. -/
def exKeyNoVal : List Nat := [107, 61, 10]

/-- A buffer of exactly 64 non-blank lines "x\n". -/
def ex64 : List Nat := [120, 10, 120, 10, 120, 10, 120, 10, 120, 10, 120, 10, 120, 10, 120, 10, 120, 10, 120, 10, 120, 10, 120, 10, 120, 10, 120, 10, 120, 10, 120, 10, 120, 10, 120, 10, 120, 10, 120, 10, 120, 10, 120, 10, 120, 10, 120, 10, 120, 10, 120, 10, 120, 10, 120, 10, 120, 10, 120, 10, 120, 10, 120, 10, 120, 10, 120, 10, 120, 10, 120, 10, 120, 10, 120, 10, 120, 10, 120, 10, 120, 10, 120, 10, 120, 10, 120, 10, 120, 10, 120, 10, 120, 10, 120, 10, 120, 10, 120, 10, 120, 10, 120, 10, 120, 10, 120, 10, 120, 10, 120, 10, 120, 10, 120, 10, 120, 10, 120, 10, 120, 10, 120, 10, 120, 10, 120, 10]

/-- C1 counterexample: on the buffer "=v\n" the iterator yields an entry
with `key_len = 0` (the line is not skipped), `maclabel_count` counts it,
and `maclabel_find_linear` with the empty key matches it. -/
theorem iterator_accepts_empty_key_line :
    maclabel_parser_next exEmptyKey exEmptyKey.length 0 =
      some (⟨0, 0, 1, 1⟩, 3) ∧
    maclabel_count exEmptyKey = 1 ∧
    maclabel_find_linear exEmptyKey [] (5, 5) = (true, (1, 1)) := by
  have h1 : maclabel_parser_next exEmptyKey exEmptyKey.length 0 =
      some (⟨0, 0, 1, 1⟩, 3) := by
    simp [exEmptyKey, parser_next_eq, skip_blank, line_next, line_end_pos, find_char, byteAt]
  have h2 : maclabel_parser_next exEmptyKey exEmptyKey.length 3 = none := by
    simp [exEmptyKey, parser_next_eq, skip_blank, line_next, line_end_pos, find_char, byteAt]
  refine ⟨h1, ?_, ?_⟩
  · rw [maclabel_count, count_from_of_some exEmptyKey exEmptyKey.length 0 ⟨0, 0, 1, 1⟩ 3 h1,
      count_from_of_none exEmptyKey exEmptyKey.length 3 h2]
  · rw [maclabel_find_linear,
      find_linear_from_of_some exEmptyKey exEmptyKey.length [] 0 (5, 5) ⟨0, 0, 1, 1⟩ 3 h1,
      if_pos (by simp [entry_matches, key_bytes_match])]

/-- C1 (amended): every entry the iterator yields has its key span
immediately followed by the `=` separator, so a line lacking `=` yields no
entry; but the key may be empty: the buffer "=v\n" yields exactly one
entry with `key_len = 0`, which `maclabel_count` counts. -/
theorem iterator_skips_only_lines_without_separator :
    (∀ (buf : List Nat) (pos : Nat) (ent : maclabel_entry) (np : Nat),
      maclabel_parser_next buf buf.length pos = some (ent, np) →
      byteAt buf (ent.key + ent.key_len) = 61) ∧
    maclabel_entries exEmptyKey = [⟨0, 0, 1, 1⟩] ∧
    maclabel_count exEmptyKey = 1 := by
  have h1 : maclabel_parser_next exEmptyKey exEmptyKey.length 0 =
      some (⟨0, 0, 1, 1⟩, 3) := by
    simp [exEmptyKey, parser_next_eq, skip_blank, line_next, line_end_pos, find_char, byteAt]
  have h2 : maclabel_parser_next exEmptyKey exEmptyKey.length 3 = none := by
    simp [exEmptyKey, parser_next_eq, skip_blank, line_next, line_end_pos, find_char, byteAt]
  refine ⟨?_, ?_, ?_⟩
  · intro buf pos ent np h
    exact (parser_next_entry_spec buf buf.length pos ent np h).2.1
  · rw [maclabel_entries, entries_from_of_some exEmptyKey exEmptyKey.length 0 ⟨0, 0, 1, 1⟩ 3 h1,
      entries_from_of_none exEmptyKey exEmptyKey.length 3 h2]
  · rw [maclabel_count, count_from_of_some exEmptyKey exEmptyKey.length 0 ⟨0, 0, 1, 1⟩ 3 h1,
      count_from_of_none exEmptyKey exEmptyKey.length 3 h2]

/-- C2: on a buffer whose non-blank lines are all well-formed, whose keys
are strictly sorted in byte-lexicographic order (hence unique), and which
is within the binary-search index capacity of 64 lines,
`maclabel_find` and `maclabel_find_linear` return identical results for
every search key and every initial state of the output locations. -/
theorem find_agrees_with_find_linear (buf key : List Nat) (v : Nat × Nat)
    (hwf : ∀ q ∈ lineStartsAll buf buf.length 0, line_ok buf buf.length q = true)
    (hsort : ((lineStartsAll buf buf.length 0).map (lineKey buf buf.length)).Pairwise
      (fun a b => lexCompare a b = -1))
    (hcap : (lineStartsAll buf buf.length 0).length ≤ 64) :
    maclabel_find buf key v = maclabel_find_linear buf key v :=
  find_eq_linear_sorted buf key v hwf hsort hcap

/-- C2 witness: the sorted buffer "a=1\nb=2\n" searched for "b". -/
theorem find_agrees_with_find_linear_witness :
    maclabel_find exKV [98] (9, 9) = maclabel_find_linear exKV [98] (9, 9) := by
  have hls : lineStartsAll exKV exKV.length 0 = [0, 4] := by
    simp [exKV, lineStartsAll_eq, skip_blank, line_next, line_end_pos, find_char, byteAt]
  refine find_agrees_with_find_linear exKV [98] (9, 9) ?_ ?_ ?_
  · rw [hls]
    intro q hq
    simp only [List.mem_cons, List.not_mem_nil, or_false] at hq
    rcases hq with rfl | rfl
    · simp [line_ok, line_end_pos, find_char, byteAt, exKV]
    · simp [line_ok, line_end_pos, find_char, byteAt, exKV]
  · rw [hls]
    simp [lineKey, line_end_pos, find_char, byteAt, exKV, lexCompare]
  · rw [hls]
    simp

/-- C3 counterexample: a buffer with exactly 64 non-blank lines (not more
than 64) already makes `maclabel_find` take the linear-search fallback:
the delegation test `line_count >= 64` holds. -/
theorem exactly_64_lines_still_delegate :
    nonblank_lines ex64 = 64 ∧
    64 ≤ (build_index ex64 ex64.length 0 0).length ∧
    maclabel_find ex64 [120] (0, 0) = maclabel_find_linear ex64 [120] (0, 0) := by
  have h1 : nonblank_lines ex64 = 64 := by
    simp [nonblank_lines, ex64, lineStartsAll_eq, skip_blank, line_next, line_end_pos,
      find_char, byteAt]
  have h2 : 64 ≤ (build_index ex64 ex64.length 0 0).length := by
    rw [build_index_eq_take ex64 ex64.length 0 0 (Nat.zero_le _), List.length_take]
    rw [nonblank_lines] at h1
    omega
  exact ⟨h1, h2, by rw [maclabel_find, if_pos h2]⟩

/-- C3 (amended): `maclabel_find` delegates to `maclabel_find_linear`
exactly when the buffer has at least 64 non-blank lines (64 or more, not
only strictly more); with fewer than 64 it binary-searches the index of
line starts. -/
theorem delegation_iff_at_least_64_lines :
    ∀ buf : List Nat,
      (64 ≤ (build_index buf buf.length 0 0).length ↔ 64 ≤ nonblank_lines buf) ∧
      (∀ (key : List Nat) (v : Nat × Nat), (build_index buf buf.length 0 0).length < 64 →
        maclabel_find buf key v =
          bsearch buf buf.length key (build_index buf buf.length 0 0) 0
            (build_index buf buf.length 0 0).length v) := by
  intro buf
  constructor
  · rw [build_index_eq_take buf buf.length 0 0 (Nat.zero_le _), List.length_take,
      nonblank_lines]
    omega
  · intro key v hlt
    rw [maclabel_find, if_neg (by omega)]

/-- C4: `maclabel_validate` returns false exactly when the buffer has a
non-blank line (a line start is offset 0 or any offset right after a
newline) that lacks `=`, has `=` as its first byte, or contains an
embedded NUL; in particular it returns true on the empty buffer and on a
buffer of newlines only. -/
theorem validate_false_iff_bad_line :
    ∀ buf : List Nat,
      (maclabel_validate buf = false ↔
        ∃ i, i < buf.length ∧ (i = 0 ∨ byteAt buf (i - 1) = 10) ∧
          byteAt buf i ≠ 10 ∧ bad_line_cond buf i) ∧
      maclabel_validate [] = true ∧
      maclabel_validate ([10, 10, 10] : List Nat) = true := by
  intro buf
  refine ⟨?_, ?_, ?_⟩
  · rw [maclabel_validate, validate_from_false_iff buf 0 (Nat.zero_le _)]
    constructor
    · rintro ⟨i, _, h2, h3, h4, h5⟩
      exact ⟨i, h2, h3, h4, h5⟩
    · rintro ⟨i, h2, h3, h4, h5⟩
      exact ⟨i, Nat.zero_le _, h2, h3, h4, h5⟩
  · simp [maclabel_validate, maclabel_validate_from]
  · simp [maclabel_validate, maclabel_validate_from, byteAt]

/-- C5: `compare_key` computes the three-way byte-lexicographic comparison
of the full slice against the full (modelled) null-terminated target. -/
theorem compare_key_is_lex_compare :
    ∀ (buf : List Nat) (off key_len : Nat) (target : List Nat),
      off + key_len ≤ buf.length →
      compare_key buf off key_len target =
        lexCompare ((buf.drop off).take key_len) target :=
  fun buf off key_len target h => compare_key_eq_lex buf target off key_len h

/-- C5 witness: the slice "a" of "a=1\nb=2\n" against the target "a=". -/
theorem compare_key_is_lex_compare_witness :
    compare_key exKV 0 1 [97, 61] = lexCompare ((exKV.drop 0).take 1) [97, 61] :=
  compare_key_is_lex_compare exKV 0 1 [97, 61] (by simp [exKV])

/-- C6: when the cursor (after skipping blank lines) sits on a non-blank
line whose first `=` is at offset `eqp`, the iterator yields exactly one
entry for that line, split at that first `=`: the key is the span before
`eqp` (which contains no `=`), the value the span after it up to the line
end, and the cursor moves past the line.  With `eqp + 1` equal to the
line end the value span is empty rather than an error. -/
theorem iterator_splits_at_first_separator :
    ∀ (buf : List Nat) (pos eqp : Nat),
      skip_blank buf buf.length pos < buf.length →
      find_char buf (skip_blank buf buf.length pos)
        (line_end_pos buf buf.length (skip_blank buf buf.length pos)) 61 = some eqp →
      maclabel_parser_next buf buf.length pos =
        some (⟨skip_blank buf buf.length pos, eqp - skip_blank buf buf.length pos,
            eqp + 1,
            line_end_pos buf buf.length (skip_blank buf buf.length pos) - (eqp + 1)⟩,
          line_next buf buf.length (skip_blank buf buf.length pos)) ∧
      (∀ j, skip_blank buf buf.length pos ≤ j → j < eqp → byteAt buf j ≠ 61) := by
  intro buf pos eqp h1 h2
  constructor
  · rw [parser_next_eq, if_pos h1, h2]
  · exact (find_char_some_spec buf
      (line_end_pos buf buf.length (skip_blank buf buf.length pos)) 61
      (skip_blank buf buf.length pos) eqp h2).2.2.2

/-- C6 witness: the buffer "k=\n" yields the single entry with key "k"
and an empty value (`value_len = 0`). -/
theorem iterator_splits_at_first_separator_witness :
    maclabel_parser_next exKeyNoVal exKeyNoVal.length 0 = some (⟨0, 1, 2, 0⟩, 3) := by
  have hskip : skip_blank exKeyNoVal exKeyNoVal.length 0 = 0 := by
    simp [exKeyNoVal, skip_blank, byteAt]
  have hfind : find_char exKeyNoVal (skip_blank exKeyNoVal exKeyNoVal.length 0)
      (line_end_pos exKeyNoVal exKeyNoVal.length
        (skip_blank exKeyNoVal exKeyNoVal.length 0)) 61 = some 1 := by
    simp [exKeyNoVal, skip_blank, line_end_pos, find_char, byteAt]
  have h := (iterator_splits_at_first_separator exKeyNoVal 0 1
    (by simp [exKeyNoVal, skip_blank, byteAt]) hfind).1
  simpa [exKeyNoVal, skip_blank, line_end_pos, line_next, find_char, byteAt] using h

/-- C7: `maclabel_count` equals the number of entries the iterator yields
from a freshly initialised parser run to exhaustion. -/
theorem count_counts_iterated_entries :
    ∀ buf : List Nat, maclabel_count buf = (maclabel_entries buf).length := by
  intro buf
  rw [maclabel_count, maclabel_entries]
  exact count_from_eq_length buf buf.length 0

/-- C8: every entry the iterator yields satisfies the span invariants:
no `=` and no newline in the key span, no newline in the value span, the
two spans are adjacent across the `=` separator of one line, and they lie
entirely within the buffer. -/
theorem entry_spans_invariants :
    ∀ (buf : List Nat) (pos : Nat) (ent : maclabel_entry) (np : Nat),
      maclabel_parser_next buf buf.length pos = some (ent, np) →
      (∀ j, j < ent.key_len → byteAt buf (ent.key + j) ≠ 61 ∧ byteAt buf (ent.key + j) ≠ 10) ∧
      (∀ j, j < ent.value_len → byteAt buf (ent.value + j) ≠ 10) ∧
      ent.value = ent.key + ent.key_len + 1 ∧
      byteAt buf (ent.key + ent.key_len) = 61 ∧
      ent.value + ent.value_len ≤ buf.length := by
  intro buf pos ent np h
  have hs := parser_next_entry_spec buf buf.length pos ent np h
  exact ⟨hs.2.2.2.1, hs.2.2.2.2, hs.1, hs.2.1, hs.2.2.1⟩

/-- C8 witness: the first entry of "a=1\nb=2\n". -/
theorem entry_spans_invariants_witness :
    byteAt exKV ((⟨0, 1, 2, 1⟩ : maclabel_entry).key +
        (⟨0, 1, 2, 1⟩ : maclabel_entry).key_len) = 61 ∧
    (⟨0, 1, 2, 1⟩ : maclabel_entry).value +
        (⟨0, 1, 2, 1⟩ : maclabel_entry).value_len ≤ exKV.length := by
  have h1 : maclabel_parser_next exKV exKV.length 0 = some (⟨0, 1, 2, 1⟩, 4) := by
    simp [exKV, parser_next_eq, skip_blank, line_next, line_end_pos, find_char, byteAt]
  have h := entry_spans_invariants exKV 0 ⟨0, 1, 2, 1⟩ 4 h1
  exact ⟨h.2.2.2.1, h.2.2.2.2⟩

/-- C9: both lookups leave the caller's output locations unchanged when
they return false, write them independently of their initial contents
when they return true, and their boolean result does not depend on those
initial contents. -/
theorem lookup_writes_outputs_only_on_success :
    ∀ (buf key : List Nat) (v v2 : Nat × Nat),
      ((maclabel_find_linear buf key v).1 = (maclabel_find_linear buf key v2).1 ∧
        ((maclabel_find_linear buf key v).1 = false →
          (maclabel_find_linear buf key v).2 = v) ∧
        ((maclabel_find_linear buf key v).1 = true →
          (maclabel_find_linear buf key v).2 = (maclabel_find_linear buf key v2).2)) ∧
      ((maclabel_find buf key v).1 = (maclabel_find buf key v2).1 ∧
        ((maclabel_find buf key v).1 = false → (maclabel_find buf key v).2 = v) ∧
        ((maclabel_find buf key v).1 = true →
          (maclabel_find buf key v).2 = (maclabel_find buf key v2).2)) := by
  intro buf key v v2
  have hlin := find_linear_from_state buf buf.length key 0 v v2
  constructor
  · exact hlin
  · by_cases hfull : 64 ≤ (build_index buf buf.length 0 0).length
    · have hv : maclabel_find buf key v = maclabel_find_linear buf key v := by
        rw [maclabel_find, if_pos hfull]
      have hv2 : maclabel_find buf key v2 = maclabel_find_linear buf key v2 := by
        rw [maclabel_find, if_pos hfull]
      rw [hv, hv2]
      exact hlin
    · have hv : maclabel_find buf key v = bsearch buf buf.length key
          (build_index buf buf.length 0 0) 0 (build_index buf buf.length 0 0).length v := by
        rw [maclabel_find, if_neg hfull]
      have hv2 : maclabel_find buf key v2 = bsearch buf buf.length key
          (build_index buf buf.length 0 0) 0 (build_index buf buf.length 0 0).length v2 := by
        rw [maclabel_find, if_neg hfull]
      rw [hv, hv2]
      exact bsearch_state buf buf.length key (build_index buf buf.length 0 0)
        (build_index buf buf.length 0 0).length 0
        (build_index buf buf.length 0 0).length v v2 (Nat.le_refl _)

/-- C10: the iterator's cursor never passes the end pointer, it strictly
advances on every yielded entry, and a buffer of `n` bytes yields at most
`n` entries when iterated to exhaustion. -/
theorem iterator_terminates_with_bounded_yield :
    ∀ (buf : List Nat) (pos : Nat),
      (∀ (ent : maclabel_entry) (np : Nat),
        maclabel_parser_next buf buf.length pos = some (ent, np) →
        pos < np ∧ np ≤ buf.length) ∧
      (maclabel_entries_from buf buf.length pos).length ≤ buf.length - pos ∧
      (maclabel_entries buf).length ≤ buf.length := by
  intro buf pos
  refine ⟨?_, ?_, ?_⟩
  · intro ent np h
    exact parser_next_advance buf buf.length pos ent np h
  · exact entries_from_length_le buf buf.length pos
  · rw [maclabel_entries]
    have h := entries_from_length_le buf buf.length 0
    omega

end MacLabel
